import Mathlib

/-!
Verification of the selfhood-api content pipeline.

This file shallowly embeds the core of the repository:
the HTML normalizer `convertHtmlToMarkdown` (src/app/api/chat/route.ts),
the `WebflowFetcher` class of src/lib/webflow-fetcher.ts (slug generation,
content extraction, component resolution with its memoization cache,
case-study and system-prompt transformation, and the `processPage`
orchestrator), and proves or refutes the specification's claims about them.

Strings are modelled as `List Char` (with `String` wrappers where a claim
speaks about strings); JavaScript's regex-based `String.replace` calls are
modelled by structurally recursive scanning functions that mirror the
left-to-right, leftmost-match, continue-after-match semantics of a global
replace. Where a match consumes a variable number of characters, the
scanner carries an explicit skip counter or an "inside a candidate match"
buffer so that the definitions stay structurally recursive and hence
evaluate by kernel reduction.
-/

namespace SelfhoodApi

/-- The characters matched by the JavaScript regex class `\s`
(ASCII whitespace, NBSP, the Unicode space separators, line/paragraph
separators, and the BOM), as used by `/\s+/g` and `String.prototype.trim`. -/
def isJsWs (c : Char) : Bool :=
  c = ' ' || c = '\t' || c = '\n' || c.val = 11 || c.val = 12 || c = '\r' ||
  c.val = 0xA0 || c.val = 0x1680 || (0x2000 ≤ c.val && c.val ≤ 0x200A) ||
  c.val = 0x2028 || c.val = 0x2029 || c.val = 0x202F || c.val = 0x205F ||
  c.val = 0x3000 || c.val = 0xFEFF

/-- ASCII lower-casing of one character (the core `Char.toLower`),
modelling the effect of JavaScript's `toLowerCase` and of the `i` regex
flag on the character range the source's patterns and comparisons
involve. -/

def lcChar (c : Char) : Char := c.toLower

def isWordChar (c : Char) : Bool :=
  ('A' ≤ c && c ≤ 'Z') || ('a' ≤ c && c ≤ 'z') || ('0' ≤ c && c ≤ '9') || c = '_'

/-- Case-insensitive "starts with": the first `pat.length` characters of
`s`, lower-cased, equal `pat` (which is given already lower-cased). -/

def ciPrefix (pat s : List Char) : Bool :=
  (s.take pat.length).map lcChar = pat

/-- Does `pat` occur case-insensitively anywhere in `l`? -/

def ciOccurs (pat : List Char) : List Char → Bool
  | [] => pat.isEmpty
  | c :: t => ciPrefix pat (c :: t) || ciOccurs pat t

/-- Index just past the first case-insensitive occurrence of `pat` in the
given list (`none` when `pat` does not occur). -/

def ciEndIdx (pat : List Char) : List Char → Option Nat
  | [] => if pat.isEmpty then some 0 else none
  | c :: t =>
    if ciPrefix pat (c :: t) then some pat.length
    else (ciEndIdx pat t).map (· + 1)

/-- One of the block-removal replaces, e.g.
`.replace(/<script\b[^<]*(?:(?!<\/script>)<[^<]*)*<\/script>/gi, "")`.
Such a regex matches at a position iff the text there starts with
`<` ++ tag (case-insensitively) followed by a word boundary, and a closing
`</` ++ tag ++ `>` occurs (case-insensitively) later; the match extends
through the first such closer. On a match the whole block is dropped and
scanning resumes after it; otherwise the character is kept and scanning
moves on by one. The first argument counts characters of a recognized
match still to be discarded (0 in normal scanning). -/

def rbGo (tag : List Char) : Nat → List Char → List Char
  | n + 1, _ :: t => rbGo tag n t
  | _, [] => []
  | 0, c :: t =>
    let opener := '<' :: tag
    if ciPrefix opener (c :: t) &&
       (match (c :: t).drop opener.length with
        | [] => true
        | d :: _ => !isWordChar d) then
      match ciEndIdx ('<' :: '/' :: (tag ++ ['>'])) ((c :: t).drop opener.length) with
      | some k => rbGo tag (opener.length + k - 1) t
      | none => c :: rbGo tag 0 t
    else c :: rbGo tag 0 t

/-- Block removal, normal scanning mode. -/

def removeBlocks (tag : List Char) (l : List Char) : List Char :=
  rbGo tag 0 l

/-- Models `.replace(/<[^>]+>/g, "")`. The `Option` state is `none` while
scanning normally and `some buf` after an unresolved `<`, where `buf`
holds the (reversed) characters read since that `<`; on a `>` a nonempty
buffer completes a match (the tag is dropped), an empty buffer means the
unmatched text `<>` is kept, and at the end of input an unresolved `<`
plus its buffer is emitted unchanged, matching how the regex can no
longer match anywhere inside a suffix that contains no `>`. -/

def stGo : Option (List Char) → List Char → List Char
  | none, [] => []
  | none, c :: t => if c = '<' then stGo (some []) t else c :: stGo none t
  | some buf, [] => '<' :: buf.reverse
  | some buf, c :: t =>
    if c = '>' then
      if buf.isEmpty then '<' :: '>' :: stGo none t
      else stGo none t
    else stGo (some (c :: buf)) t

/-- Tag stripping, normal scanning mode. -/

def stripTags (l : List Char) : List Char :=
  stGo none l

/-- The six characters of the entity `&nbsp;`. -/

def nbspPat : List Char := ['&', 'n', 'b', 's', 'p', ';']

/-- Models `.replace(/&nbsp;/g, " ")`; the counter discards the remaining
characters of a recognized occurrence. -/

def rnGo : Nat → List Char → List Char
  | n + 1, _ :: t => rnGo n t
  | _, [] => []
  | 0, c :: t =>
    if nbspPat.isPrefixOf (c :: t) then ' ' :: rnGo 5 t
    else c :: rnGo 0 t

/-- Entity replacement, normal scanning mode. -/

def replaceNbsp (l : List Char) : List Char := rnGo 0 l

/-- Models `.replace(/\s+/g, " ")`: each maximal whitespace run becomes a
single space. The Boolean is true while inside a run whose space has
already been emitted. -/

def cwGo : Bool → List Char → List Char
  | _, [] => []
  | skipping, c :: t =>
    if isJsWs c then
      if skipping then cwGo true t else ' ' :: cwGo true t
    else c :: cwGo false t

/-- Whitespace collapsing, normal mode. -/

def collapseWs (l : List Char) : List Char :=
  cwGo false l

/-- Remove trailing JS whitespace. -/

def trimRight (l : List Char) : List Char :=
  (l.reverse.dropWhile isJsWs).reverse

/-- Models JavaScript `String.prototype.trim`. -/

def jsTrimList (l : List Char) : List Char :=
  trimRight (l.dropWhile isJsWs)

def scriptTag : List Char := ['s', 'c', 'r', 'i', 'p', 't']

def styleTag : List Char := ['s', 't', 'y', 'l', 'e']

def figureTag : List Char := ['f', 'i', 'g', 'u', 'r', 'e']

/-- The HTML normalizer `convertHtmlToMarkdown` of
src/app/api/chat/route.ts: remove script blocks, then style blocks, then
figure blocks, strip remaining tags, replace `&nbsp;` with a space,
collapse whitespace runs, and trim. -/

def convertHtmlToMarkdownList (l : List Char) : List Char :=
  jsTrimList (collapseWs (replaceNbsp (stripTags
    (removeBlocks figureTag (removeBlocks styleTag (removeBlocks scriptTag l))))))

/-- `String` version of the normalizer. -/

def convertHtmlToMarkdown (s : String) : String :=
  ⟨convertHtmlToMarkdownList s.data⟩

/-!
Invariant used for the idempotence proof: in tag-stripped text, every `<`
is either immediately followed by `>` (a fragment the tag regex cannot
consume, because it needs a nonempty body) or sees no `>` at all later.
On such text the tag regex has no match, and neither has any
`</tag>`-closed block regex.
-/

/-- Every `<` is immediately followed by `>` or has no `>` after it. -/

def goodAngles : List Char → Bool
  | [] => true
  | c :: t =>
    if c = '<' then
      match t with
      | [] => true
      | d :: u => if d = '>' then goodAngles u else decide ('>' ∉ d :: u)
    else goodAngles t

def occursPat (pat : List Char) : List Char → Bool
  | [] => pat.isEmpty
  | c :: t => pat.isPrefixOf (c :: t) || occursPat pat t

def wsOk : List Char → Bool
  | [] => true
  | [c] => !isJsWs c || c = ' '
  | c :: d :: t => (!isJsWs c || (c = ' ' && !isJsWs d)) && wsOk (d :: t)

def isSlugChar (c : Char) : Bool :=
  ('a' ≤ c && c ≤ 'z') || ('0' ≤ c && c ≤ '9')

/-- JS `toLowerCase`, modelled characterwise on the ASCII range. -/

def jsToLower (l : List Char) : List Char := l.map lcChar

/-- Models `.replace(/[^a-z0-9]+/g, "-")`: each maximal run of characters
outside `[a-z0-9]` becomes one hyphen. The Boolean is true while inside a
run whose hyphen has already been emitted. -/

def hrGo : Bool → List Char → List Char
  | _, [] => []
  | inRun, c :: t =>
    if isSlugChar c then c :: hrGo false t
    else if inRun then hrGo true t else '-' :: hrGo true t

/-- Run replacement, normal mode. -/

def hyphenateRuns (l : List Char) : List Char := hrGo false l

/-- Models the `^-` half of `.replace(/^-|-$/g, "")`. -/

def stripLeadHyphen : List Char → List Char
  | [] => []
  | c :: t => if c = '-' then t else c :: t

/-- Models the `-$` half of `.replace(/^-|-$/g, "")`. -/

def stripTrailHyphen (l : List Char) : List Char :=
  (stripLeadHyphen l.reverse).reverse

/-- Models `.replace(/^-|-$/g, "")`. -/

def stripEdgeHyphens (l : List Char) : List Char :=
  stripTrailHyphen (stripLeadHyphen l)

/-- `createSlug` of src/lib/webflow-fetcher.ts: lower-case the title; a
title equal to "index" maps to "/in"; otherwise replace non-alphanumeric
runs with hyphens, strip edge hyphens, and prefix "/". -/

def createSlug (title : String) : String :=
  let lowerTitle := jsToLower title.data
  if lowerTitle = "index".data then "/in"
  else ⟨'/' :: stripEdgeHyphens (hyphenateRuns lowerTitle)⟩

/-- The maximal `[a-z0-9]`-runs of a string, in order (the accumulator
holds the reversed current run). Written from the specification's
description of slug generation. -/

def slugRunsGo (cur : List Char) : List Char → List (List Char)
  | [] => if cur.isEmpty then [] else [cur.reverse]
  | c :: t =>
    if isSlugChar c then slugRunsGo (c :: cur) t
    else if cur.isEmpty then slugRunsGo [] t else cur.reverse :: slugRunsGo [] t

/-- The maximal alphanumeric runs of a string. -/

def slugRuns (l : List Char) : List (List Char) := slugRunsGo [] l

/-- The specification's characterization of slug generation (§4.2):
lower-case; "index" maps to the literal "/in"; otherwise "/" followed by
the maximal `[a-z0-9]` runs of the lowered title joined by single
hyphens. -/

def slugifySpec (title : String) : String :=
  let lower := jsToLower title.data
  if lower = "index".data then "/in"
  else ⟨'/' :: List.intercalate ['-'] (slugRuns lower)⟩

def nlGo : Nat → List Char → List Char
  | n + 1, _ :: t => nlGo n t
  | _, [] => []
  | 0, c :: t =>
    if c = '\n' then
      if (t.takeWhile isJsWs).contains '\n' then
        '\n' :: nlGo ((t.takeWhile isJsWs).length -
          ((t.takeWhile isJsWs).reverse.takeWhile (fun d => d != '\n')).length) t
      else c :: nlGo 0 t
    else c :: nlGo 0 t

/-- Newline-run collapsing, normal mode. -/

def collapseNlRuns (l : List Char) : List Char := nlGo 0 l

/-- Models `.replace(/\[|\]|\*|_/g, "")`. -/

def removeMdChars (l : List Char) : List Char :=
  l.filter (fun c => !(c = '[' || c = ']' || c = '*' || c = '_'))

/-- Models `.replace(/\(https?:\/\/[^\)]+\)/g, "")`: a parenthesized URL
(nonempty body up to the closing parenthesis) is removed; the counter
discards the consumed characters of a match. -/

def puGo : Nat → List Char → List Char
  | n + 1, _ :: t => puGo n t
  | _, [] => []
  | 0, c :: t =>
    let plen : Nat := if "(https://".data.isPrefixOf (c :: t) then 9 else 8
    if "(http://".data.isPrefixOf (c :: t) || "(https://".data.isPrefixOf (c :: t) then
      if (((c :: t).drop plen).takeWhile (fun d => d != ')')).length > 0 &&
         (((c :: t).drop plen).drop
           (((c :: t).drop plen).takeWhile (fun d => d != ')')).length).head? = some ')' then
        puGo (plen + (((c :: t).drop plen).takeWhile (fun d => d != ')')).length) t
      else c :: puGo 0 t
    else c :: puGo 0 t

/-- Parenthesized-URL removal, normal mode. -/

def removeParenUrls (l : List Char) : List Char := puGo 0 l

/-- `standardizeContent` of src/lib/webflow-fetcher.ts: collapse
whitespace runs, collapse blank lines, trim, remove the markdown
formatting characters, remove parenthesized URLs — chained in the
source's order. -/

def standardizeContent (s : String) : String :=
  ⟨removeParenUrls (removeMdChars (jsTrimList (collapseNlRuns (collapseWs s.data))))⟩

/-- The literal prefix of the pattern removed by `sanitizeContent`. -/

def wfReservedPat : List Char :=
  "[__wf_reserved_inherit](https://cdn.prod.website-files.com/".data

/-- Scanner for `sanitizeContent`'s regex (literal prefix, then any
characters other than a closing parenthesis, then a closing
parenthesis). -/

def scGo : Nat → List Char → List Char
  | n + 1, _ :: t => scGo n t
  | _, [] => []
  | 0, c :: t =>
    if wfReservedPat.isPrefixOf (c :: t) then
      if (((c :: t).drop wfReservedPat.length).drop
           (((c :: t).drop wfReservedPat.length).takeWhile (fun d => d != ')')).length).head?
          = some ')' then
        scGo (wfReservedPat.length +
          (((c :: t).drop wfReservedPat.length).takeWhile (fun d => d != ')')).length) t
      else c :: scGo 0 t
    else c :: scGo 0 t

/-- `sanitizeContent` of src/lib/webflow-fetcher.ts: removes the
`[__wf_reserved_inherit](https://cdn.prod.website-files.com/...)`
leftovers. -/

def sanitizeContent (s : String) : String := ⟨scGo 0 s.data⟩

/-- JS `String.prototype.trim`. -/

def jsTrimString (s : String) : String := ⟨jsTrimList s.data⟩

/-- JS `String.prototype.toLowerCase` (ASCII model). -/

def jsToLowerString (s : String) : String := ⟨jsToLower s.data⟩

structure TextPayload where
  html : String
  text : String
deriving DecidableEq

/-- A node of the CMS document tree (`WebflowNode` in the source):
a `type` tag, an optional `componentId`, an optional text payload, and
children. Absent `children` in the source is modelled as `[]` (the
source treats missing and empty child lists alike). -/

inductive WNode where
  | node (type : String) (componentId : Option String) (text : Option TextPayload)
      (children : List WNode)

def WNode.typeTag : WNode → String
  | .node ty _ _ _ => ty

def WNode.componentId : WNode → Option String
  | .node _ cid _ _ => cid

def WNode.textPayload : WNode → Option TextPayload
  | .node _ _ tx _ => tx

def WNode.children : WNode → List WNode
  | .node _ _ _ ch => ch

/-- The marker substring `class="page-title"` searched for (with JS
`String.includes`) in a text node's raw HTML. -/

def pageTitleMarker : List Char := "class=\"page-title\"".data

/-- The result entity for one page. -/

structure PageContent where
  title : String
  slug : String
  content : String
deriving DecidableEq

/-- Assoc-list update modelling JS object property assignment: an
existing key keeps its position and gets the new value, a new key is
appended. -/

def setKey {α : Type} (m : List (String × α)) (k : String) (v : α) :
    List (String × α) :=
  match m with
  | [] => [(k, v)]
  | (k', v') :: rest => if k' = k then (k, v) :: rest else (k', v') :: setKey rest k v

/-- Assoc-list lookup modelling JS object property read. -/

def getKey {α : Type} (m : List (String × α)) (k : String) : Option α :=
  match m with
  | [] => none
  | (k', v') :: rest => if k' = k then some v' else getKey rest k

/-- `pages[currentPage].content += s`: append to the content of an
existing entry (the extractor only appends under a key it has created,
so the missing-key case is unreachable there and is a no-op here). -/

def appendContent (m : List (String × PageContent)) (k : String) (s : String) :
    List (String × PageContent) :=
  match m with
  | [] => []
  | (k', v') :: rest =>
    if k' = k then (k', { v' with content := v'.content ++ s }) :: rest
    else (k', v') :: appendContent rest k s

/-- The visit of one text node, as an event: a page-title marker
(carrying the node's plain-text payload) or plain content (carrying the
raw HTML). -/

inductive ExtractEv where
  | marker (text : String)
  | content (html : String)
deriving DecidableEq

/-- The event a node contributes when visited: only text nodes with a
truthy (present and nonempty) `text.html` contribute; the raw HTML
containing the CSS marker makes it a page-title marker. -/

def eventOf (n : WNode) : Option ExtractEv :=
  if n.typeTag = "text" then
    match n.textPayload with
    | some tp =>
      if tp.html = "" then none
      else if occursPat pageTitleMarker tp.html.data then some (.marker tp.text)
      else some (.content tp.html)
    | none => none
  else none

/-- The extractor's traversal state: the pages object and the mutable
`currentPage` variable. -/

structure ExtractState where
  pages : List (String × PageContent)
  currentPage : Option String
deriving DecidableEq

/-- One step of the extractor on a text-node event (`td` models the
external `turndownService.turndown` markdown converter): a marker sets
`currentPage` to the trimmed plain text and (re)creates that page's
entry with empty content; other text appends converted-and-sanitized
content plus a newline to the current page, or is discarded when no
marker has been seen yet. -/

def extractStep (td : String → String) (st : ExtractState) : ExtractEv → ExtractState
  | .marker txt =>
    let title := jsTrimString txt
    { pages := setKey st.pages title
        { title := title, slug := createSlug title, content := "" },
      currentPage := some title }
  | .content html =>
    match st.currentPage with
    | some t =>
      { st with pages := appendContent st.pages t ((sanitizeContent (td html)).append "\n") }
    | none => st

/-- The initial extraction state. -/

def initExtractState : ExtractState := ⟨[], none⟩

mutual
/-- The recursive `traverse` of `extractContent`: process the node's own
event, then the children, left to right (depth-first, pre-order). -/
def extractVisit (td : String → String) (st : ExtractState) : WNode → ExtractState
  | WNode.node ty cid tx ch =>
    extractVisitList td
      (match eventOf (WNode.node ty cid tx ch) with
       | some e => extractStep td st e
       | none => st) ch

/-- `nodes.forEach(traverse)`. -/
def extractVisitList (td : String → String) (st : ExtractState) :
    List WNode → ExtractState
  | [] => st
  | n :: rest => extractVisitList td (extractVisit td st n) rest
end

mutual
/-- The pre-order event sequence of a node: its own event, then its
children's. -/
def eventsOfNode : WNode → List ExtractEv
  | WNode.node ty cid tx ch =>
    (eventOf (WNode.node ty cid tx ch)).toList ++ eventsOfList ch

/-- The pre-order event sequence of a node list. -/
def eventsOfList : List WNode → List ExtractEv
  | [] => []
  | n :: rest => eventsOfNode n ++ eventsOfList rest
end

/-- `extractContent` of src/lib/webflow-fetcher.ts: run the traversal
from the empty state, then standardize every page's content
(`Object.values(pages).forEach(...)`). -/
def extractContent (td : String → String) (nodes : List WNode) :
    List (String × PageContent) :=
  (extractVisitList td initExtractState nodes).pages.map
    (fun kv => (kv.1, { kv.2 with content := standardizeContent kv.2.content }))

/-!
Component resolution (src/lib/webflow-fetcher.ts,
`recursivelyFetchComponents` / `getComponentDefinition`).

Two complementary models are used:

* `resolveNode`/`resolveList` compute the resolved tree. The fetch
  collaborator `f` (componentId → component node list) is deterministic,
  so the cache cannot influence the resulting tree and is omitted here.
  `fuel` decreases at every tree level; the source recurses unboundedly
  and diverges on cyclic component references (spec §7), so every
  statement instantiates or quantifies over enough fuel.

* `cacheRun` computes the cache state and the ordered log of fetch
  collaborator invocations. It mirrors the JavaScript cooperative
  scheduling of `Promise.all(nodes.map(processNode))`: the synchronous
  prefix of every `processNode` — including the `componentCache.has`
  check inside `getComponentDefinition` — runs before any awaited fetch
  resolves, so all cache checks of one batch observe the cache as of
  batch entry, while each miss's `componentCache.set` runs only after
  its fetch resolves. The schedule fixed here (each fetch's continuation
  runs to completion before the next pending fetch resolves) is one
  legal timing of the source's concurrent execution; the check-before-
  write behavior of a single batch, which the claims turn on, is the
  same under every schedule.
-/

/-- Is this node taken by the resolver's component-instance branch?
JS tests `node.type === "component-instance" && node.componentId`, so an
absent or empty-string componentId (falsy) falls through to the plain
children branch. -/

def isInstanceWithId (ty : String) (cid : Option String) : Bool :=
  ty = "component-instance" &&
    (match cid with
     | some c => !(c = "")
     | none => false)

/-- `processNode`: a component instance gets its children replaced by
the recursively resolved component definition `f c`; any other node has
its children resolved in place. -/

def resolveNode (f : String → List WNode) : Nat → WNode → WNode
  | 0, n => n
  | fuel + 1, WNode.node ty cid tx ch =>
    match cid with
    | some c =>
      if ty = "component-instance" && !(c = "") then
        WNode.node ty cid tx ((f c).map (resolveNode f fuel))
      else
        WNode.node ty cid tx (ch.map (resolveNode f fuel))
    | none => WNode.node ty cid tx (ch.map (resolveNode f fuel))

/-- `recursivelyFetchComponents` on a node list (result semantics). -/

def resolveList (f : String → List WNode) (fuel : Nat) (nodes : List WNode) :
    List WNode :=
  nodes.map (resolveNode f fuel)

mutual
/-- The cache check a node contributes during the synchronous phase: a
component instance contributes its id; any other node contributes its
children's checks (an instance node's own children are ignored by the
source — they are replaced wholesale). -/
def pendingIdsNode : WNode → List String
  | WNode.node ty cid _ ch =>
    match cid with
    | some c =>
      if ty = "component-instance" && !(c = "") then [c] else pendingIds ch
    | none => pendingIds ch

/-- The componentIds whose cache check happens during the synchronous
phase of one `recursivelyFetchComponents(nodes)` call: a pre-order
listing of the component-instance nodes reachable without crossing
another component instance. -/
def pendingIds : List WNode → List String
  | [] => []
  | n :: rest => pendingIdsNode n ++ pendingIds rest
end

/-- Phase B of a batch: process the pending checks in order. `entry` is
the cache observed by this batch's checks (the cache as of batch entry);
`cache` is the current cache. A miss appends the id to the fetch log and
writes the cache when its fetch resolves, then the fetched definition is
recursively resolved (a nested batch whose checks observe the then-
current cache); a hit re-resolves the cached definition without
fetching. Fuel decreases on every processed id, bounding the recursion
that the source performs unboundedly. Returns the final cache and the
fetch log in invocation order. -/
def cacheRun (f : String → List WNode) :
    Nat → List String → List String → List String → List String × List String
  | _, _, cache, [] => (cache, [])
  | 0, _, cache, _ :: _ => (cache, [])
  | fuel + 1, entry, cache, c :: rest =>
    if c ∈ entry then
      let r1 := cacheRun f fuel cache cache (pendingIds (f c))
      let r2 := cacheRun f fuel entry r1.1 rest
      (r2.1, r1.2 ++ r2.2)
    else
      let r1 := cacheRun f fuel (cache.insert c) (cache.insert c) (pendingIds (f c))
      let r2 := cacheRun f fuel entry r1.1 rest
      (r2.1, c :: (r1.2 ++ r2.2))

/-- The fetch log and final cache of one `recursivelyFetchComponents`
call starting from cache `σ`. -/

def componentFetchRun (f : String → List WNode) (fuel : Nat) (σ : List String)
    (nodes : List WNode) : List String × List String :=
  cacheRun f fuel σ σ (pendingIds nodes)

/-- The `WebflowFetcher` instance state: the `componentCache` field,
modelled by its key set (with a deterministic collaborator the cached
values are determined by the keys). The field initializer
`new Map()` runs once per instance — at construction, not per
`processPage` call. -/

structure WebflowFetcherState where
  componentCache : List String
deriving DecidableEq

/-- `new WebflowFetcher()`: a fresh instance with an empty cache. -/

def newWebflowFetcher : WebflowFetcherState := ⟨[]⟩

/-- The component-resolution work of one `processPage` call on an
instance: the ordered fetch log and the instance state afterwards (the
cache is a field mutated in place, so it persists on the instance). -/

def processPageFetches (f : String → List WNode) (fuel : Nat)
    (st : WebflowFetcherState) (nodes : List WNode) :
    List String × WebflowFetcherState :=
  let r := componentFetchRun f fuel st.componentCache nodes
  (r.2, ⟨r.1⟩)

/-!
Transformers and the `processPage` orchestrator.
-/

/-- A raw case-study collection item (`fieldData`). -/

structure WebflowCaseStudyItem where
  name : String
  slug : String
  content : Option String
deriving DecidableEq

/-- The raw system-prompt item (`fieldData`, two optional fields). -/

structure WebflowSystemPromptItem where
  styleGuidelines : Option String
  questionPatterns : Option String
deriving DecidableEq

structure CaseStudy where
  title : String
  slug : String
  content : String
deriving DecidableEq

structure SystemPromptData where
  styleGuidelines : String
  questionPatterns : String
deriving DecidableEq

structure FetchResult where
  pages : List (String × PageContent)
  caseStudies : List (String × CaseStudy)
  systemPrompt : SystemPromptData
deriving DecidableEq

/-- `transformCaseStudies`: map each item to a key/value pair (key =
trimmed name lower-cased; title = trimmed name; slug = "/casestudies/"
++ the source-provided slug; content = sanitized converted markdown,
with `content || ""` defaulting), then `Object.fromEntries`, under which
a later duplicate key overwrites an earlier one. -/

def transformCaseStudies (td : String → String)
    (items : List WebflowCaseStudyItem) : List (String × CaseStudy) :=
  (items.map (fun item =>
    let title := jsTrimString item.name
    ((jsToLowerString title,
      { title := title,
        slug := "/casestudies/".append item.slug,
        content := sanitizeContent (td (item.content.getD "")) }) : String × CaseStudy))
  ).foldl (fun m kv => setKey m kv.1 kv.2) []

/-- `transformSystemPrompt`: field extraction with empty-string
defaults. -/

def transformSystemPrompt (data : WebflowSystemPromptItem) : SystemPromptData :=
  { styleGuidelines := data.styleGuidelines.getD ""
    questionPatterns := data.questionPatterns.getD "" }

/-- Failure outcomes of `processPage`: a rejected fetch (the `fetchData`
wrapper tags the failing endpoint), or a runtime TypeError. -/

inductive FetchErr where
  | fetchFailed (endpoint : String)
  | jsTypeError
deriving DecidableEq

/-- The document-tree response. Its top-level shape is ambiguous across
deployments (spec §6): either a wrapped object with a `nodes` property
or a bare node array. -/

inductive DomResponse where
  | wrapped (nodes : List WNode)
  | bare (nodes : List WNode)

/-- The JS property access `domResponse.nodes`: the node array on the
wrapped shape, `undefined` on a bare array. -/

def DomResponse.nodesProp : DomResponse → Option (List WNode)
  | .wrapped ns => some ns
  | .bare _ => none

/-- `processPage` of src/lib/webflow-fetcher.ts. The three top-level
fetches run under `Promise.all`, whose join rejects the call if any of
them rejects, passing the fetch's error through; on success the source
reads `domResponse.nodes`, resolves components, and assembles the
result. When the document-tree response is a bare array,
`domResponse.nodes` is `undefined` and `recursivelyFetchComponents`
immediately throws a TypeError (`nodes.map` on `undefined`), which also
rejects the call. The `Array.isArray(processedNodes)` test before
`extractContent` is always true (the resolver resolves to an array), so
the model applies `extractContent` directly. -/

def processPage (td : String → String) (f : String → List WNode) (fuel : Nat)
    (domFetch : Except FetchErr DomResponse)
    (caseStudiesFetch : Except FetchErr (List WebflowCaseStudyItem))
    (systemPromptFetch : Except FetchErr WebflowSystemPromptItem) :
    Except FetchErr FetchResult := do
  let domResponse ← domFetch
  let caseStudiesData ← caseStudiesFetch
  let systemPromptData ← systemPromptFetch
  match domResponse.nodesProp with
  | none => throw FetchErr.jsTypeError
  | some ns =>
    pure
      { pages := extractContent td (resolveList f fuel ns)
        caseStudies := transformCaseStudies td caseStudiesData
        systemPrompt := transformSystemPrompt systemPromptData }

instance {ε α : Type} [DecidableEq ε] [DecidableEq α] :
    DecidableEq (Except ε α) := fun x y =>
  match x, y with
  | .ok a, .ok b =>
    if h : a = b then isTrue (by rw [h])
    else isFalse (by intro he; cases he; exact h rfl)
  | .error a, .error b =>
    if h : a = b then isTrue (by rw [h])
    else isFalse (by intro he; cases he; exact h rfl)
  | .ok _, .error _ => isFalse (by intro h; cases h)
  | .error _, .ok _ => isFalse (by intro h; cases h)

/-- A text node, for concrete scenarios. -/

def textNode (html text : String) : WNode :=
  WNode.node "text" none (some ⟨html, text⟩) []

/-- A component-instance node without static children. -/

def instNode (c : String) : WNode :=
  WNode.node "component-instance" (some c) none []

def foldEvents (td : String → String) (st : ExtractState) (es : List ExtractEv) :
    ExtractState :=
  es.foldl (extractStep td) st

theorem toNat_ofNat_valid {n : Nat} (h : n < 0xd800) : (Char.ofNat n).toNat = n := by
  have hv : n.isValidChar := Or.inl h
  rw [Char.ofNat, dif_pos hv]
  simp [Char.ofNatAux, Char.toNat, UInt32.toNat, BitVec.toNat_ofNatLt]

/-- `lcChar` only moves characters into the range a-z, so any character
whose lower-casing lies outside that range was already equal to it. -/

theorem lcChar_eq_of_not_lower {c y : Char}
    (hy : ¬(97 ≤ y.toNat ∧ y.toNat ≤ 122)) (h : lcChar c = y) : c = y := by
  unfold lcChar Char.toLower at h
  dsimp only at h
  split_ifs at h with hc
  · exfalso
    apply hy
    have hval : (Char.ofNat (c.toNat + 32)).toNat = c.toNat + 32 :=
      toNat_ofNat_valid (by omega)
    rw [← h, hval]
    omega
  · exact h

theorem lcChar_eq_lt {c : Char} (h : lcChar c = '<') : c = '<' :=
  lcChar_eq_of_not_lower (by decide) h

theorem lcChar_eq_slash {c : Char} (h : lcChar c = '/') : c = '/' :=
  lcChar_eq_of_not_lower (by decide) h

theorem lcChar_eq_gt {c : Char} (h : lcChar c = '>') : c = '>' :=
  lcChar_eq_of_not_lower (by decide) h

/-- JavaScript regex word characters `[A-Za-z0-9_]`, used for `\b`. -/

theorem goodAngles_lt_nil : goodAngles ['<'] = true := by
  rw [goodAngles.eq_def]
  simp

theorem goodAngles_cons_ne {c : Char} (h : ¬c = '<') (t : List Char) :
    goodAngles (c :: t) = goodAngles t := by
  rw [goodAngles.eq_def]
  simp [h]

theorem goodAngles_lt_gt (u : List Char) :
    goodAngles ('<' :: '>' :: u) = goodAngles u := rfl

theorem goodAngles_lt_cons {d : Char} (h : ¬d = '>') (u : List Char) :
    goodAngles ('<' :: d :: u) = decide ('>' ∉ d :: u) := by
  simp [goodAngles, h]

theorem goodAngles_lt_of_not_mem {t : List Char} (h : '>' ∉ t) :
    goodAngles ('<' :: t) = true := by
  cases t with
  | nil => rfl
  | cons d u =>
    have hd : ¬d = '>' := by
      intro hde
      exact h (hde ▸ List.mem_cons_self d u)
    rw [goodAngles_lt_cons hd]
    simpa using h

theorem goodAngles_of_not_mem {l : List Char} (h : '>' ∉ l) :
    goodAngles l = true := by
  induction l with
  | nil => rfl
  | cons c t ih =>
    by_cases hc : c = '<'
    · subst hc
      exact goodAngles_lt_of_not_mem (fun hm => h (List.mem_cons_of_mem _ hm))
    · rw [goodAngles_cons_ne hc]
      exact ih (fun hm => h (List.mem_cons_of_mem _ hm))

theorem goodAngles_tail {l : List Char} (h : goodAngles l = true) :
    goodAngles l.tail = true := by
  cases l with
  | nil => rfl
  | cons c t =>
    simp only [List.tail_cons]
    by_cases hc : c = '<'
    · subst hc
      cases t with
      | nil => rfl
      | cons d u =>
        by_cases hd : d = '>'
        · subst hd
          rw [goodAngles_lt_gt] at h
          rw [goodAngles_cons_ne (by decide)]
          exact h
        · rw [goodAngles_lt_cons hd] at h
          exact goodAngles_of_not_mem (by simpa using h)
    · rw [goodAngles_cons_ne hc] at h
      exact h

theorem goodAngles_drop {l : List Char} (n : Nat) (h : goodAngles l = true) :
    goodAngles (l.drop n) = true := by
  induction n generalizing l with
  | zero => simpa using h
  | succ m ih =>
    cases l with
    | nil => rfl
    | cons c t =>
      rw [List.drop_succ_cons]
      exact ih (goodAngles_tail h)

theorem goodAngles_dropWhile {l : List Char} (p : Char → Bool)
    (h : goodAngles l = true) : goodAngles (l.dropWhile p) = true := by
  induction l with
  | nil => rfl
  | cons c t ih =>
    rw [List.dropWhile_cons]
    by_cases hp : p c = true
    · simp only [hp, if_true]
      exact ih (goodAngles_tail h)
    · simp only [hp, if_false]
      exact h

theorem goodAngles_take {l : List Char} (n : Nat) (h : goodAngles l = true) :
    goodAngles (l.take n) = true := by
  induction n using Nat.strong_induction_on generalizing l with
  | _ n ih =>
    cases n with
    | zero => rfl
    | succ m =>
      cases l with
      | nil => rfl
      | cons c t =>
        rw [List.take_succ_cons]
        by_cases hc : c = '<'
        · subst hc
          cases t with
          | nil => simpa using h
          | cons d u =>
            by_cases hd : d = '>'
            · subst hd
              cases m with
              | zero => simpa using goodAngles_lt_nil
              | succ k =>
                rw [List.take_succ_cons, goodAngles_lt_gt]
                rw [goodAngles_lt_gt] at h
                exact ih k (by omega) h
            · rw [goodAngles_lt_cons hd] at h
              apply goodAngles_lt_of_not_mem
              intro hm
              have hmem : '>' ∈ d :: u := List.mem_of_mem_take hm
              simp [hmem] at h
        · rw [goodAngles_cons_ne hc] at h
          rw [goodAngles_cons_ne hc]
          exact ih m (by omega) h

theorem goodAngles_of_prefix {l m : List Char} (hp : l <+: m)
    (h : goodAngles m = true) : goodAngles l = true := by
  obtain ⟨r, rfl⟩ := hp
  have := goodAngles_take l.length h
  rwa [List.take_left] at this

theorem goodAngles_of_suffix {l m : List Char} (hs : l <:+ m)
    (h : goodAngles m = true) : goodAngles l = true := by
  obtain ⟨r, rfl⟩ := hs
  have := goodAngles_drop r.length h
  rwa [List.drop_left] at this

theorem stGo_dead {t : List Char} (h : '>' ∉ t) (buf : List Char) :
    stGo (some buf) t = '<' :: buf.reverse ++ t := by
  induction t generalizing buf with
  | nil => simp [stGo]
  | cons c t ih =>
    have hc : ¬c = '>' := fun hce => h (hce ▸ List.mem_cons_self c t)
    simp only [stGo, hc, if_false]
    rw [ih (fun hm => h (List.mem_cons_of_mem _ hm)) (c :: buf)]
    simp

theorem stGo_none_of_not_mem {l : List Char} (h : '>' ∉ l) : stGo none l = l := by
  induction l with
  | nil => rfl
  | cons c t ih =>
    by_cases hc : c = '<'
    · subst hc
      simp only [stGo, if_pos rfl]
      rw [stGo_dead (fun hm => h (List.mem_cons_of_mem _ hm)) []]
      simp
    · simp only [stGo, hc, if_false]
      rw [ih (fun hm => h (List.mem_cons_of_mem _ hm))]

theorem stGo_good (l : List Char) :
    goodAngles (stGo none l) = true ∧
      ∀ buf : List Char, '>' ∉ buf → goodAngles (stGo (some buf) l) = true := by
  induction l with
  | nil =>
    refine ⟨rfl, fun buf hb => ?_⟩
    show goodAngles ('<' :: buf.reverse) = true
    exact goodAngles_lt_of_not_mem (by simpa using hb)
  | cons c t ih =>
    obtain ⟨ih1, ih2⟩ := ih
    constructor
    · by_cases hc : c = '<'
      · subst hc
        simp only [stGo, if_pos rfl]
        exact ih2 [] (by simp)
      · simp only [stGo, hc, if_false]
        rw [goodAngles_cons_ne hc]
        exact ih1
    · intro buf hb
      by_cases hc : c = '>'
      · subst hc
        simp only [stGo, if_pos rfl]
        cases buf with
        | nil => simpa [goodAngles_lt_gt] using ih1
        | cons b bs => simpa using ih1
      · simp only [stGo, hc, if_false]
        exact ih2 (c :: buf) (by
          intro hm
          rcases List.mem_cons.mp hm with h1 | h2
          · exact hc h1.symm
          · exact hb h2)

theorem stripTags_good (l : List Char) : goodAngles (stripTags l) = true :=
  (stGo_good l).1

theorem stripTags_id_of_good {u : List Char} (h : goodAngles u = true) :
    stripTags u = u := by
  suffices H : ∀ n (u : List Char), u.length ≤ n → goodAngles u = true → stripTags u = u from
    H u.length u le_rfl h
  intro n
  induction n with
  | zero =>
    intro u hu _
    have h0 : u.length = 0 := Nat.le_zero.mp hu
    rw [List.length_eq_zero] at h0
    subst h0; rfl
  | succ n ih =>
    intro u hu hg
    cases u with
    | nil => rfl
    | cons c t =>
      by_cases hc : c = '<'
      · subst hc
        show stGo (some []) t = '<' :: t
        cases t with
        | nil => rfl
        | cons d v =>
          by_cases hd : d = '>'
          · subst hd
            simp only [stGo, if_pos rfl, List.isEmpty_nil, if_true]
            rw [goodAngles_lt_gt] at hg
            have hv : stripTags v = v :=
              ih v (by simp at hu; omega) hg
            show '<' :: '>' :: stGo none v = '<' :: '>' :: v
            rw [show stGo none v = stripTags v from rfl, hv]
          · rw [goodAngles_lt_cons hd] at hg
            rw [stGo_dead (by simpa using hg) []]
            simp
      · show (if c = '<' then stGo (some []) t else c :: stGo none t) = c :: t
        rw [if_neg hc]
        rw [goodAngles_cons_ne hc] at hg
        have := ih t (by simp at hu; omega) hg
        rw [show stGo none t = stripTags t from rfl, this]

theorem rnGo_skip (n : Nat) (l : List Char) : rnGo n l = rnGo 0 (l.drop n) := by
  induction n generalizing l with
  | zero => simp
  | succ m ih =>
    cases l with
    | nil => rfl
    | cons c t =>
      show rnGo m t = rnGo 0 ((c :: t).drop (m + 1))
      rw [List.drop_succ_cons]
      exact ih t

theorem replaceNbsp_match {c : Char} {t : List Char}
    (h : nbspPat.isPrefixOf (c :: t) = true) :
    replaceNbsp (c :: t) = ' ' :: replaceNbsp (t.drop 5) := by
  show rnGo 0 (c :: t) = ' ' :: rnGo 0 (t.drop 5)
  simp only [rnGo, h, if_true]
  rw [rnGo_skip 5 t]

theorem replaceNbsp_cons_ne {c : Char} {t : List Char}
    (h : ¬nbspPat.isPrefixOf (c :: t) = true) :
    replaceNbsp (c :: t) = c :: replaceNbsp t := by
  show rnGo 0 (c :: t) = c :: rnGo 0 t
  simp [rnGo, h]

theorem mem_replaceNbsp {a : Char} :
    ∀ {l : List Char}, a ∈ replaceNbsp l → a ∈ l ∨ a = ' ' := by
  suffices H : ∀ n (l : List Char), l.length ≤ n → a ∈ replaceNbsp l → a ∈ l ∨ a = ' ' from
    fun {l} h => H l.length l le_rfl h
  intro n
  induction n with
  | zero =>
    intro l hl hm
    have h0 : l.length = 0 := Nat.le_zero.mp hl
    rw [List.length_eq_zero] at h0
    subst h0
    simp [replaceNbsp, rnGo] at hm
  | succ n ih =>
    intro l hl hm
    cases l with
    | nil => simp [replaceNbsp, rnGo] at hm
    | cons c t =>
      by_cases hp : nbspPat.isPrefixOf (c :: t) = true
      · rw [replaceNbsp_match hp] at hm
        rcases List.mem_cons.mp hm with h1 | h2
        · exact Or.inr h1
        · rcases ih (t.drop 5) (by simp at hl ⊢; omega) h2 with h3 | h3
          · exact Or.inl (List.mem_cons_of_mem _ (List.drop_subset 5 t h3))
          · exact Or.inr h3
      · rw [replaceNbsp_cons_ne hp] at hm
        rcases List.mem_cons.mp hm with h1 | h2
        · exact Or.inl (h1 ▸ List.mem_cons_self c t)
        · rcases ih t (by simp at hl; omega) h2 with h3 | h3
          · exact Or.inl (List.mem_cons_of_mem _ h3)
          · exact Or.inr h3

theorem nbspPat_not_prefix_of_ne {c : Char} (hc : ¬c = '&') (t : List Char) :
    ¬nbspPat.isPrefixOf (c :: t) = true := by
  intro h
  rw [show nbspPat = '&' :: ['n', 'b', 's', 'p', ';'] from rfl] at h
  rw [List.isPrefixOf_cons₂] at h
  simp at h
  exact hc h.1.symm

theorem replaceNbsp_good {l : List Char} (h : goodAngles l = true) :
    goodAngles (replaceNbsp l) = true := by
  suffices H : ∀ n (l : List Char), l.length ≤ n → goodAngles l = true →
      goodAngles (replaceNbsp l) = true from H l.length l le_rfl h
  intro n
  induction n with
  | zero =>
    intro l hl _
    have h0 : l.length = 0 := Nat.le_zero.mp hl
    rw [List.length_eq_zero] at h0
    subst h0; rfl
  | succ n ih =>
    intro l hl hg
    cases l with
    | nil => rfl
    | cons c t =>
      by_cases hp : nbspPat.isPrefixOf (c :: t) = true
      · rw [replaceNbsp_match hp]
        rw [goodAngles_cons_ne (by decide)]
        refine ih (t.drop 5) (by simp at hl ⊢; omega) ?_
        have : goodAngles ((c :: t).drop 6) = true := goodAngles_drop 6 hg
        simpa using this
      · rw [replaceNbsp_cons_ne hp]
        by_cases hc : c = '<'
        · subst hc
          cases t with
          | nil => simpa [replaceNbsp, rnGo] using goodAngles_lt_nil
          | cons d v =>
            by_cases hd : d = '>'
            · subst hd
              rw [replaceNbsp_cons_ne (nbspPat_not_prefix_of_ne (by decide) v)]
              rw [goodAngles_lt_gt]
              rw [goodAngles_lt_gt] at hg
              have := ih v (by simp at hl; omega) hg
              simpa [replaceNbsp] using this
            · rw [goodAngles_lt_cons hd] at hg
              apply goodAngles_lt_of_not_mem
              intro hm
              rcases mem_replaceNbsp hm with h1 | h1
              · simp [h1] at hg
              · exact absurd h1 (by decide)
        · rw [goodAngles_cons_ne hc]
          rw [goodAngles_cons_ne hc] at hg
          exact ih t (by simp at hl; omega) hg

/-- Does `pat` occur (case-sensitively) anywhere in the list? -/

theorem occursPat_iff_sub {pat l : List Char} :
    occursPat pat l = true ↔ pat <:+: l := by
  induction l with
  | nil =>
    simp [occursPat, List.isEmpty_iff, List.infix_nil]
  | cons c t ih =>
    simp only [occursPat, Bool.or_eq_true, List.isPrefixOf_iff_prefix, ih,
      List.infix_cons_iff]

theorem replaceNbsp_prefix_transfer :
    ∀ {pat : List Char}, ' ' ∉ pat →
      ∀ {l : List Char}, pat <+: replaceNbsp l → pat <+: l := by
  suffices H : ∀ n (l : List Char), l.length ≤ n → ∀ pat : List Char, ' ' ∉ pat →
      pat <+: replaceNbsp l → pat <+: l from
    fun {pat} hs {l} hp => H l.length l le_rfl pat hs hp
  intro n
  induction n with
  | zero =>
    intro l hl pat _ hp
    have h0 : l.length = 0 := Nat.le_zero.mp hl
    rw [List.length_eq_zero] at h0
    subst h0
    simpa [replaceNbsp, rnGo] using hp
  | succ n ih =>
    intro l hl pat hs hp
    cases l with
    | nil => simpa [replaceNbsp, rnGo] using hp
    | cons c t =>
      cases pat with
      | nil => exact List.nil_prefix
      | cons p ps =>
        by_cases hm : nbspPat.isPrefixOf (c :: t) = true
        · rw [replaceNbsp_match hm] at hp
          have : p = ' ' := (List.cons_prefix_cons.mp hp).1
          exact absurd (this ▸ List.mem_cons_self p ps) hs
        · rw [replaceNbsp_cons_ne hm] at hp
          obtain ⟨hpc, hps⟩ := List.cons_prefix_cons.mp hp
          subst hpc
          have := ih t (by simp at hl; omega) ps
            (fun hmem => hs (List.mem_cons_of_mem _ hmem)) hps
          exact List.cons_prefix_cons.mpr ⟨rfl, this⟩

theorem occursPat_replaceNbsp (l : List Char) :
    occursPat nbspPat (replaceNbsp l) = false := by
  suffices H : ∀ n (l : List Char), l.length ≤ n →
      occursPat nbspPat (replaceNbsp l) = false from H l.length l le_rfl
  intro n
  induction n with
  | zero =>
    intro l hl
    have h0 : l.length = 0 := Nat.le_zero.mp hl
    rw [List.length_eq_zero] at h0
    subst h0; rfl
  | succ n ih =>
    intro l hl
    cases l with
    | nil => rfl
    | cons c t =>
      by_cases hm : nbspPat.isPrefixOf (c :: t) = true
      · rw [replaceNbsp_match hm]
        simp only [occursPat, Bool.or_eq_false_iff]
        constructor
        · rw [show nbspPat = '&' :: ['n', 'b', 's', 'p', ';'] from rfl,
            List.isPrefixOf_cons₂]
          simp
        · exact ih (t.drop 5) (by simp at hl ⊢; omega)
      · rw [replaceNbsp_cons_ne hm]
        simp only [occursPat, Bool.or_eq_false_iff]
        constructor
        · by_contra hcon
          simp only [Bool.not_eq_false] at hcon
          rw [List.isPrefixOf_iff_prefix] at hcon
          have hpre : nbspPat <+: replaceNbsp (c :: t) := by
            rwa [replaceNbsp_cons_ne hm]
          have := replaceNbsp_prefix_transfer (by decide) hpre
          rw [← List.isPrefixOf_iff_prefix] at this
          exact hm this
        · exact ih t (by simp at hl; omega)

theorem replaceNbsp_id_of_not_occurs {u : List Char}
    (h : occursPat nbspPat u = false) : replaceNbsp u = u := by
  induction u with
  | nil => rfl
  | cons c t ih =>
    simp only [occursPat, Bool.or_eq_false_iff] at h
    rw [replaceNbsp_cons_ne (by simp [h.1]), ih h.2]

theorem cwGo_cons_ws_true {c : Char} {t : List Char} (h : isJsWs c = true) :
    cwGo true (c :: t) = cwGo true t := by
  simp [cwGo, h]

theorem cwGo_cons_ws_false {c : Char} {t : List Char} (h : isJsWs c = true) :
    cwGo false (c :: t) = ' ' :: cwGo true t := by
  simp [cwGo, h]

theorem cwGo_cons_not_ws {b : Bool} {c : Char} {t : List Char} (h : isJsWs c = false) :
    cwGo b (c :: t) = c :: cwGo false t := by
  cases b <;> simp [cwGo, h]

theorem mem_cwGo {a : Char} :
    ∀ {l : List Char} {b : Bool}, a ∈ cwGo b l → a ∈ l ∨ a = ' ' := by
  intro l
  induction l with
  | nil => intro b h; simp [cwGo] at h
  | cons c t ih =>
    intro b h
    by_cases hw : isJsWs c = true
    · cases b with
      | true =>
        rw [cwGo_cons_ws_true hw] at h
        rcases ih h with h1 | h1
        · exact Or.inl (List.mem_cons_of_mem _ h1)
        · exact Or.inr h1
      | false =>
        rw [cwGo_cons_ws_false hw] at h
        rcases List.mem_cons.mp h with h1 | h1
        · exact Or.inr h1
        · rcases ih h1 with h2 | h2
          · exact Or.inl (List.mem_cons_of_mem _ h2)
          · exact Or.inr h2
    · rw [cwGo_cons_not_ws (Bool.not_eq_true _ ▸ hw)] at h
      rcases List.mem_cons.mp h with h1 | h1
      · exact Or.inl (h1 ▸ List.mem_cons_self c t)
      · rcases ih h1 with h2 | h2
        · exact Or.inl (List.mem_cons_of_mem _ h2)
        · exact Or.inr h2

theorem cwGo_good {l : List Char} {b : Bool} (h : goodAngles l = true) :
    goodAngles (cwGo b l) = true := by
  suffices H : ∀ n (l : List Char), l.length ≤ n → ∀ b : Bool, goodAngles l = true →
      goodAngles (cwGo b l) = true from H l.length l le_rfl b h
  intro n
  induction n with
  | zero =>
    intro l hl b _
    have h0 : l.length = 0 := Nat.le_zero.mp hl
    rw [List.length_eq_zero] at h0
    subst h0; rfl
  | succ n ih =>
    intro l hl b hg
    cases l with
    | nil => rfl
    | cons c t =>
      by_cases hw : isJsWs c = true
      · have hc : ¬c = '<' := by
          intro hce
          rw [hce] at hw
          exact absurd hw (by decide)
        rw [goodAngles_cons_ne hc] at hg
        cases b with
        | true =>
          rw [cwGo_cons_ws_true hw]
          exact ih t (by simp at hl; omega) true hg
        | false =>
          rw [cwGo_cons_ws_false hw]
          rw [goodAngles_cons_ne (by decide)]
          exact ih t (by simp at hl; omega) true hg
      · have hwf : isJsWs c = false := Bool.not_eq_true _ ▸ hw
        rw [cwGo_cons_not_ws hwf]
        by_cases hc : c = '<'
        · subst hc
          cases t with
          | nil => simpa [cwGo] using goodAngles_lt_nil
          | cons d v =>
            by_cases hd : d = '>'
            · subst hd
              rw [cwGo_cons_not_ws (by decide)]
              rw [goodAngles_lt_gt]
              rw [goodAngles_lt_gt] at hg
              exact ih v (by simp at hl; omega) false hg
            · rw [goodAngles_lt_cons hd] at hg
              apply goodAngles_lt_of_not_mem
              intro hm
              rcases mem_cwGo hm with h1 | h1
              · simp [h1] at hg
              · exact absurd h1 (by decide)
        · rw [goodAngles_cons_ne hc]
          rw [goodAngles_cons_ne hc] at hg
          exact ih t (by simp at hl; omega) false hg

theorem cwGo_prefix_transfer {pat : List Char} (hs : ∀ a ∈ pat, isJsWs a = false) :
    ∀ {l : List Char}, pat <+: cwGo false l → pat <+: l := by
  induction pat with
  | nil => intro l _; exact List.nil_prefix
  | cons p ps ih =>
    intro l hp
    cases l with
    | nil => simp [cwGo] at hp
    | cons c t =>
      by_cases hw : isJsWs c = true
      · rw [cwGo_cons_ws_false hw] at hp
        have hpeq : p = ' ' := (List.cons_prefix_cons.mp hp).1
        have hps := hs p (List.mem_cons_self p ps)
        rw [hpeq] at hps
        simp [isJsWs] at hps
      · rw [cwGo_cons_not_ws (Bool.not_eq_true _ ▸ hw)] at hp
        obtain ⟨hpc, hps⟩ := List.cons_prefix_cons.mp hp
        subst hpc
        exact List.cons_prefix_cons.mpr
          ⟨rfl, ih (fun a ha => hs a (List.mem_cons_of_mem _ ha)) hps⟩

theorem occursPat_cons_of {pat : List Char} {c : Char} {t : List Char}
    (h : occursPat pat t = true) : occursPat pat (c :: t) = true := by
  simp [occursPat, h]

theorem cwGo_occurs_transfer {pat : List Char} (hs : ∀ a ∈ pat, isJsWs a = false) :
    ∀ {l : List Char} {b : Bool}, occursPat pat (cwGo b l) = true →
      occursPat pat l = true := by
  intro l
  induction l with
  | nil => intro b h; simpa [cwGo, occursPat] using h
  | cons c t ih =>
    intro b h
    by_cases hw : isJsWs c = true
    · cases b with
      | true =>
        rw [cwGo_cons_ws_true hw] at h
        exact occursPat_cons_of (ih h)
      | false =>
        rw [cwGo_cons_ws_false hw] at h
        simp only [occursPat, Bool.or_eq_true] at h
        rcases h with h1 | h1
        · cases pat with
          | nil => simp [occursPat]
          | cons p ps =>
            rw [List.isPrefixOf_iff_prefix] at h1
            have hpeq : p = ' ' := (List.cons_prefix_cons.mp h1).1
            have hps := hs p (List.mem_cons_self p ps)
            rw [hpeq] at hps
            simp [isJsWs] at hps
        · exact occursPat_cons_of (ih h1)
    · rw [cwGo_cons_not_ws (Bool.not_eq_true _ ▸ hw)] at h
      simp only [occursPat, Bool.or_eq_true] at h ⊢
      rcases h with h1 | h1
      · left
        cases pat with
        | nil => simp
        | cons p ps =>
          rw [List.isPrefixOf_iff_prefix] at h1 ⊢
          obtain ⟨hpc, hps⟩ := List.cons_prefix_cons.mp h1
          subst hpc
          exact List.cons_prefix_cons.mpr
            ⟨rfl, cwGo_prefix_transfer (fun a ha => hs a (List.mem_cons_of_mem _ ha)) hps⟩
      · exact Or.inr (ih h1)

/-- Whitespace-normal form: every whitespace character is a plain space
and no two whitespace characters are adjacent. -/

theorem wsOk_tail {c : Char} {t : List Char} (h : wsOk (c :: t) = true) :
    wsOk t = true := by
  cases t with
  | nil => rfl
  | cons d u => exact (Bool.and_eq_true_iff.mp h).2

theorem wsOk_cons_not_ws {c : Char} {t : List Char} (hc : isJsWs c = false)
    (h : wsOk t = true) : wsOk (c :: t) = true := by
  cases t with
  | nil => simp [wsOk, hc]
  | cons d u => simp [wsOk, hc, h]

theorem cwGo_wsOk (l : List Char) :
    wsOk (cwGo false l) = true ∧ wsOk (' ' :: cwGo true l) = true := by
  induction l with
  | nil => constructor <;> rfl
  | cons c t ih =>
    obtain ⟨ih1, ih2⟩ := ih
    by_cases hw : isJsWs c = true
    · rw [cwGo_cons_ws_false hw, cwGo_cons_ws_true hw]
      exact ⟨ih2, ih2⟩
    · have hwf : isJsWs c = false := Bool.not_eq_true _ ▸ hw
      rw [cwGo_cons_not_ws hwf, cwGo_cons_not_ws hwf]
      constructor
      · exact wsOk_cons_not_ws hwf ih1
      · cases hcw : cwGo false t with
        | nil => simp [wsOk, hwf]
        | cons x xs =>
          show wsOk (' ' :: c :: x :: xs) = true
          simp only [wsOk, Bool.and_eq_true]
          refine ⟨by simp [hwf], ?_⟩
          have := wsOk_cons_not_ws hwf (hcw ▸ ih1)
          simpa [wsOk] using this

theorem cwGo_true_eq_false {t : List Char}
    (h : t = [] ∨ ∃ d u, t = d :: u ∧ isJsWs d = false) :
    cwGo true t = cwGo false t := by
  rcases h with rfl | ⟨d, u, rfl, hd⟩
  · rfl
  · rw [cwGo_cons_not_ws hd, cwGo_cons_not_ws hd]

theorem collapseWs_id_of_wsOk {u : List Char} (h : wsOk u = true) :
    collapseWs u = u := by
  induction u with
  | nil => rfl
  | cons c t ih =>
    show cwGo false (c :: t) = c :: t
    by_cases hw : isJsWs c = true
    · have hsp : c = ' ' := by
        cases t with
        | nil =>
          simp only [wsOk, Bool.or_eq_true] at h
          rcases h with h1 | h1
          · rw [hw] at h1; simp at h1
          · simpa using h1
        | cons d u =>
          have hh := (Bool.and_eq_true_iff.mp h).1
          simp only [Bool.or_eq_true] at hh
          rcases hh with h1 | h1
          · rw [hw] at h1; simp at h1
          · simpa using (Bool.and_eq_true_iff.mp h1).1
      have hnext : t = [] ∨ ∃ d u, t = d :: u ∧ isJsWs d = false := by
        cases t with
        | nil => exact Or.inl rfl
        | cons d u =>
          refine Or.inr ⟨d, u, rfl, ?_⟩
          have hh := (Bool.and_eq_true_iff.mp h).1
          simp only [Bool.or_eq_true] at hh
          rcases hh with h1 | h1
          · rw [hw] at h1; simp at h1
          · simpa using (Bool.and_eq_true_iff.mp h1).2
      rw [cwGo_cons_ws_false hw, cwGo_true_eq_false hnext]
      have hid := ih (wsOk_tail h)
      rw [show collapseWs t = cwGo false t from rfl] at hid
      rw [hid, hsp]
    · rw [cwGo_cons_not_ws (Bool.not_eq_true _ ▸ hw)]
      have hid := ih (wsOk_tail h)
      rw [show collapseWs t = cwGo false t from rfl] at hid
      rw [hid]

theorem wsOk_take {l : List Char} (n : Nat) (h : wsOk l = true) :
    wsOk (l.take n) = true := by
  induction l generalizing n with
  | nil => simp [h]
  | cons c t ih =>
    cases n with
    | zero => rfl
    | succ m =>
      rw [List.take_succ_cons]
      by_cases hw : isJsWs c = true
      · cases t with
        | nil =>
          simp only [List.take_nil]
          exact h
        | cons d u =>
          have hh := (Bool.and_eq_true_iff.mp h).1
          cases m with
          | zero =>
            simp only [List.take_zero]
            simp only [Bool.or_eq_true] at hh
            rcases hh with h1 | h1
            · rw [hw] at h1; simp at h1
            · have := (Bool.and_eq_true_iff.mp h1).1
              simp only [wsOk, Bool.or_eq_true]
              right; exact this
          | succ k =>
            rw [List.take_succ_cons]
            have htail : wsOk ((d :: u).take (k + 1)) = true :=
              ih (k + 1) (wsOk_tail h)
            rw [List.take_succ_cons] at htail
            cases hu : u.take k with
            | nil =>
              simp only [hu] at htail ⊢
              simp only [wsOk, Bool.and_eq_true]
              exact ⟨hh, htail⟩
            | cons x xs =>
              simp only [hu] at htail ⊢
              simp only [wsOk, Bool.and_eq_true] at htail ⊢
              exact ⟨hh, htail⟩
      · exact wsOk_cons_not_ws (Bool.not_eq_true _ ▸ hw) (ih m (wsOk_tail h))

theorem wsOk_drop {l : List Char} (n : Nat) (h : wsOk l = true) :
    wsOk (l.drop n) = true := by
  induction n generalizing l with
  | zero => simpa using h
  | succ m ih =>
    cases l with
    | nil => rfl
    | cons c t =>
      rw [List.drop_succ_cons]
      exact ih (wsOk_tail h)

theorem dropWhile_of_head_not {c : Char} {t : List Char} (p : Char → Bool)
    (h : p c = false) : (c :: t).dropWhile p = c :: t := by
  rw [List.dropWhile_cons, h]
  rfl

theorem dropWhile_dropWhile_self (p : Char → Bool) (l : List Char) :
    (l.dropWhile p).dropWhile p = l.dropWhile p := by
  induction l with
  | nil => rfl
  | cons c t ih =>
    by_cases hp : p c = true
    · rw [List.dropWhile_cons]
      simp only [hp, if_true]
      exact ih
    · have hf : p c = false := Bool.not_eq_true _ ▸ hp
      rw [dropWhile_of_head_not p hf, dropWhile_of_head_not p hf]

theorem trimRight_pre (l : List Char) : trimRight l <+: l := by
  apply List.reverse_suffix.mp
  show (trimRight l).reverse <:+ l.reverse
  unfold trimRight
  rw [List.reverse_reverse]
  exact List.dropWhile_suffix isJsWs

theorem jsTrimList_sub (l : List Char) : jsTrimList l <:+: l := by
  unfold jsTrimList
  have h1 : trimRight (l.dropWhile isJsWs) <+: l.dropWhile isJsWs := trimRight_pre _
  have h2 : l.dropWhile isJsWs <:+ l := List.dropWhile_suffix isJsWs
  exact List.IsInfix.trans h1.isInfix h2.isInfix

theorem dropWhile_trimRight_dropWhile (p : Char → Bool) (l : List Char) :
    (trimRight (l.dropWhile p)).dropWhile p = trimRight (l.dropWhile p) := by
  cases hz : trimRight (l.dropWhile p) with
  | nil => rfl
  | cons c cs =>
    have hpre : (c :: cs) <+: l.dropWhile p := hz ▸ trimRight_pre _
    obtain ⟨r, hr⟩ := hpre
    have hhead := List.head?_dropWhile_not p l
    rw [← hr] at hhead
    simp only [List.cons_append, List.head?_cons] at hhead
    exact dropWhile_of_head_not p hhead

theorem trimRight_trimRight (l : List Char) : trimRight (trimRight l) = trimRight l := by
  unfold trimRight
  rw [List.reverse_reverse, dropWhile_dropWhile_self]

theorem jsTrimList_idem (l : List Char) :
    jsTrimList (jsTrimList l) = jsTrimList l := by
  show trimRight ((trimRight (l.dropWhile isJsWs)).dropWhile isJsWs) =
    trimRight (l.dropWhile isJsWs)
  rw [dropWhile_trimRight_dropWhile, trimRight_trimRight]

theorem occursPat_of_infix {pat q l : List Char} (hq : q <:+: l)
    (h : occursPat pat q = true) : occursPat pat l = true := by
  rw [occursPat_iff_sub] at h ⊢
  exact h.trans hq

theorem goodAngles_jsTrim {u : List Char} (h : goodAngles u = true) :
    goodAngles (jsTrimList u) = true := by
  apply goodAngles_of_prefix (trimRight_pre _)
  exact goodAngles_dropWhile _ h

theorem wsOk_of_prefix {l m : List Char} (hp : l <+: m) (h : wsOk m = true) :
    wsOk l = true := by
  obtain ⟨r, rfl⟩ := hp
  have := wsOk_take l.length h
  rwa [List.take_left] at this

theorem wsOk_of_suffix {l m : List Char} (hs : l <:+ m) (h : wsOk m = true) :
    wsOk l = true := by
  obtain ⟨r, rfl⟩ := hs
  have := wsOk_drop r.length h
  rwa [List.drop_left] at this

theorem wsOk_jsTrim {u : List Char} (h : wsOk u = true) :
    wsOk (jsTrimList u) = true :=
  wsOk_of_prefix (trimRight_pre _) (wsOk_of_suffix (List.dropWhile_suffix _) h)

theorem ciPrefix_closer_false {tag : List Char} {c : Char} {t : List Char}
    (hg : goodAngles (c :: t) = true) :
    ciPrefix ('<' :: '/' :: (tag ++ ['>'])) (c :: t) = false := by
  by_contra hcon
  simp only [Bool.not_eq_false] at hcon
  unfold ciPrefix at hcon
  rw [decide_eq_true_iff] at hcon
  have hlen3 : ('<' :: '/' :: (tag ++ ['>'])).length = tag.length + 2 + 1 := by
    simp
  rw [hlen3, List.take_succ_cons, List.map_cons] at hcon
  obtain ⟨hc1, hrest⟩ := List.cons_eq_cons.mp hcon
  have hc2 : c = '<' := lcChar_eq_lt hc1
  subst hc2
  cases t with
  | nil => simp at hrest
  | cons d u =>
    rw [show tag.length + 2 = tag.length + 1 + 1 from rfl,
      List.take_succ_cons, List.map_cons] at hrest
    obtain ⟨hd1, hrest2⟩ := List.cons_eq_cons.mp hrest
    have hd2 : d = '/' := lcChar_eq_slash hd1
    subst hd2
    have hgtmem : '>' ∈ '/' :: u := by
      have hmem : '>' ∈ (tag ++ ['>']) := by simp
      rw [← hrest2] at hmem
      obtain ⟨e, he, hle⟩ := List.mem_map.mp hmem
      have := lcChar_eq_gt hle
      subst this
      exact List.mem_cons_of_mem _ (List.take_subset _ _ he)
    rw [goodAngles_lt_cons (by decide)] at hg
    simp [hgtmem] at hg

theorem ciOccurs_closer_false {tag l : List Char} (hg : goodAngles l = true) :
    ciOccurs ('<' :: '/' :: (tag ++ ['>'])) l = false := by
  induction l with
  | nil => rfl
  | cons c t ih =>
    show (ciPrefix _ (c :: t) || ciOccurs _ t) = false
    rw [ciPrefix_closer_false hg, ih (goodAngles_tail hg)]
    rfl

theorem ciEndIdx_none_of_not_occurs {pat l : List Char}
    (h : ciOccurs pat l = false) : ciEndIdx pat l = none := by
  induction l with
  | nil =>
    unfold ciOccurs at h
    unfold ciEndIdx
    simp [h]
  | cons c t ih =>
    unfold ciOccurs at h
    rw [Bool.or_eq_false_iff] at h
    unfold ciEndIdx
    rw [h.1]
    simp [ih h.2]

theorem ciOccurs_cons_of {pat : List Char} {c : Char} {t : List Char}
    (h : ciOccurs pat t = true) : ciOccurs pat (c :: t) = true := by
  unfold ciOccurs
  simp [h]

theorem ciOccurs_of_drop {pat l : List Char} {n : Nat}
    (h : ciOccurs pat (l.drop n) = true) : ciOccurs pat l = true := by
  induction n generalizing l with
  | zero => simpa using h
  | succ m ih =>
    cases l with
    | nil => simpa using h
    | cons c t =>
      rw [List.drop_succ_cons] at h
      exact ciOccurs_cons_of (ih h)

theorem rbGo_id_of_not_occurs {tag : List Char} :
    ∀ {l : List Char}, ciOccurs ('<' :: '/' :: (tag ++ ['>'])) l = false →
      rbGo tag 0 l = l := by
  intro l
  induction l with
  | nil => intro _; rfl
  | cons c t ih =>
    intro h
    have ht : ciOccurs ('<' :: '/' :: (tag ++ ['>'])) t = false := by
      unfold ciOccurs at h
      exact (Bool.or_eq_false_iff.mp h).2
    have hnone : ciEndIdx ('<' :: '/' :: (tag ++ ['>'])) ((c :: t).drop ('<' :: tag).length) = none := by
      apply ciEndIdx_none_of_not_occurs
      by_contra hcon
      simp only [Bool.not_eq_false] at hcon
      rw [ciOccurs_of_drop hcon] at h
      exact absurd h (by simp)
    show rbGo tag 0 (c :: t) = c :: t
    rw [rbGo]
    by_cases hcond : (ciPrefix ('<' :: tag) (c :: t) &&
        (match (c :: t).drop ('<' :: tag).length with
         | [] => true
         | d :: _ => !isWordChar d)) = true
    · rw [if_pos hcond, hnone]
      rw [ih ht]
    · rw [if_neg hcond, ih ht]

theorem removeBlocks_id_of_good {tag u : List Char} (hg : goodAngles u = true) :
    removeBlocks tag u = u :=
  rbGo_id_of_not_occurs (ciOccurs_closer_false hg)

theorem convertList_good (l : List Char) :
    goodAngles (convertHtmlToMarkdownList l) = true := by
  unfold convertHtmlToMarkdownList
  apply goodAngles_jsTrim
  apply cwGo_good
  apply replaceNbsp_good
  exact stripTags_good _

theorem convertList_nbsp_free (l : List Char) :
    occursPat nbspPat (convertHtmlToMarkdownList l) = false := by
  by_contra hcon
  simp only [Bool.not_eq_false] at hcon
  unfold convertHtmlToMarkdownList at hcon
  have h1 := occursPat_of_infix (jsTrimList_sub _) hcon
  have h2 := cwGo_occurs_transfer (by decide) h1
  rw [occursPat_replaceNbsp] at h2
  exact absurd h2 (by simp)

theorem convertList_wsOk (l : List Char) :
    wsOk (convertHtmlToMarkdownList l) = true := by
  unfold convertHtmlToMarkdownList
  exact wsOk_jsTrim (cwGo_wsOk _).1

theorem convertList_trim_fixed (l : List Char) :
    jsTrimList (convertHtmlToMarkdownList l) = convertHtmlToMarkdownList l := by
  unfold convertHtmlToMarkdownList
  exact jsTrimList_idem _

/-- Any string satisfying the four normal-form facts is a fixed point of
the normalizer: each of its seven rules leaves it unchanged. -/

theorem convertList_fixed {u : List Char} (hg : goodAngles u = true)
    (hn : occursPat nbspPat u = false) (hw : wsOk u = true)
    (ht : jsTrimList u = u) : convertHtmlToMarkdownList u = u := by
  unfold convertHtmlToMarkdownList
  rw [removeBlocks_id_of_good hg, removeBlocks_id_of_good hg, removeBlocks_id_of_good hg,
    stripTags_id_of_good hg, replaceNbsp_id_of_not_occurs hn, collapseWs_id_of_wsOk hw, ht]

theorem convertList_idem (l : List Char) :
    convertHtmlToMarkdownList (convertHtmlToMarkdownList l) =
      convertHtmlToMarkdownList l :=
  convertList_fixed (convertList_good l) (convertList_nbsp_free l)
    (convertList_wsOk l) (convertList_trim_fixed l)

/-!
Slug generation: `createSlug` of src/lib/webflow-fetcher.ts.
-/

/-- The characters `[a-z0-9]` kept by the slug regex. -/

example : createSlug "Index" = "/in" := by decide

example : createSlug "Case Studies!" = "/case-studies" := by decide

example : createSlug "  Multi   Space " = "/multi-space" := by decide

example : createSlug "" = "/" := by decide

example : createSlug "René & Sons" = "/ren-sons" := by decide

theorem intercalate_hyphen_nil : List.intercalate ['-'] ([] : List (List Char)) = [] := by
  simp [List.intercalate]

theorem intercalate_hyphen_single (a : List Char) :
    List.intercalate ['-'] [a] = a := by
  simp [List.intercalate]

theorem intercalate_hyphen_cons (a : List Char) {rs : List (List Char)}
    (h : rs ≠ []) :
    List.intercalate ['-'] (a :: rs) = a ++ '-' :: List.intercalate ['-'] rs := by
  cases rs with
  | nil => exact absurd rfl h
  | cons b bs =>
    simp [List.intercalate, List.intersperse]

theorem hrGo_slug_head {b : Bool} {c : Char} (hc : isSlugChar c = true)
    (t : List Char) : hrGo b (c :: t) = c :: hrGo false t := by
  cases b <;> simp [hrGo, hc]

theorem hrGo_nonslug_true {c : Char} (hc : isSlugChar c = false)
    (t : List Char) : hrGo true (c :: t) = hrGo true t := by
  simp [hrGo, hc]

theorem hrGo_nonslug_false {c : Char} (hc : isSlugChar c = false)
    (t : List Char) : hrGo false (c :: t) = '-' :: hrGo true t := by
  simp [hrGo, hc]

theorem hrGo_slug_run {run : List Char} (hall : ∀ a ∈ run, isSlugChar a = true) :
    ∀ (b : Bool) (t : List Char), run ≠ [] →
      hrGo b (run ++ t) = run ++ hrGo false t := by
  induction run with
  | nil => intro b t h; exact absurd rfl h
  | cons c cs ih =>
    intro b t _
    have hc : isSlugChar c = true := hall c (List.mem_cons_self c cs)
    rw [List.cons_append, hrGo_slug_head hc]
    cases cs with
    | nil => simp
    | cons d ds =>
      rw [ih (fun a ha => hall a (List.mem_cons_of_mem _ ha)) false t (by simp)]
      simp

theorem hrGo_nonslug_run_true {run : List Char}
    (hall : ∀ a ∈ run, isSlugChar a = false) :
    ∀ t : List Char, hrGo true (run ++ t) = hrGo true t := by
  induction run with
  | nil => intro t; simp
  | cons c cs ih =>
    intro t
    rw [List.cons_append, hrGo_nonslug_true (hall c (List.mem_cons_self c cs))]
    exact ih (fun a ha => hall a (List.mem_cons_of_mem _ ha)) t

theorem hrGo_nonslug_run_false {run : List Char}
    (hall : ∀ a ∈ run, isSlugChar a = false) (hne : run ≠ []) (t : List Char) :
    hrGo false (run ++ t) = '-' :: hrGo true t := by
  cases run with
  | nil => exact absurd rfl hne
  | cons c cs =>
    rw [List.cons_append, hrGo_nonslug_false (hall c (List.mem_cons_self c cs))]
    rw [hrGo_nonslug_run_true (fun a ha => hall a (List.mem_cons_of_mem _ ha)) t]

theorem hrGo_true_eq_false {t : List Char}
    (h : t = [] ∨ ∃ e u, t = e :: u ∧ isSlugChar e = true) :
    hrGo true t = hrGo false t := by
  rcases h with rfl | ⟨e, u, rfl, he⟩
  · rfl
  · rw [hrGo_slug_head he, hrGo_slug_head he]

theorem slugRunsGo_slug_run {run : List Char}
    (hall : ∀ a ∈ run, isSlugChar a = true) :
    ∀ (cur t : List Char),
      slugRunsGo cur (run ++ t) = slugRunsGo (run.reverse ++ cur) t := by
  induction run with
  | nil => intro cur t; simp
  | cons c cs ih =>
    intro cur t
    rw [List.cons_append]
    rw [show slugRunsGo cur (c :: (cs ++ t)) = slugRunsGo (c :: cur) (cs ++ t) by
      simp [slugRunsGo, hall c (List.mem_cons_self c cs)]]
    rw [ih (fun a ha => hall a (List.mem_cons_of_mem _ ha)) (c :: cur) t]
    simp

theorem slugRunsGo_nonslug_head {c : Char} (hc : isSlugChar c = false)
    (cur t : List Char) :
    slugRunsGo cur (c :: t) =
      if cur.isEmpty then slugRunsGo [] t else cur.reverse :: slugRunsGo [] t := by
  simp [slugRunsGo, hc]

theorem slugRunsGo_nonslug_run_empty {run : List Char}
    (hall : ∀ a ∈ run, isSlugChar a = false) :
    ∀ t : List Char, slugRunsGo [] (run ++ t) = slugRunsGo [] t := by
  induction run with
  | nil => intro t; simp
  | cons c cs ih =>
    intro t
    rw [List.cons_append, slugRunsGo_nonslug_head (hall c (List.mem_cons_self c cs))]
    simp only [List.isEmpty_nil, if_true]
    exact ih (fun a ha => hall a (List.mem_cons_of_mem _ ha)) t

theorem slugRunsGo_ne_nil {cur : List Char} (h : cur ≠ []) :
    ∀ l : List Char, slugRunsGo cur l ≠ [] := by
  intro l
  induction l generalizing cur with
  | nil =>
    unfold slugRunsGo
    simp [List.isEmpty_iff, h]
  | cons c t ih =>
    by_cases hc : isSlugChar c = true
    · rw [show slugRunsGo cur (c :: t) = slugRunsGo (c :: cur) t by
        simp [slugRunsGo, hc]]
      exact ih (by simp)
    · rw [slugRunsGo_nonslug_head (Bool.not_eq_true _ ▸ hc)]
      simp [List.isEmpty_iff, h]

theorem stripLeadHyphen_of_head_ne {c : Char} {t : List Char} (hc : ¬c = '-') :
    stripLeadHyphen (c :: t) = c :: t := by
  simp [stripLeadHyphen, hc]

theorem stripTrailHyphen_append {A B : List Char} (hB : B ≠ []) :
    stripTrailHyphen (A ++ B) = A ++ stripTrailHyphen B := by
  unfold stripTrailHyphen
  rw [List.reverse_append]
  cases hRB : B.reverse with
  | nil =>
    rw [List.reverse_eq_nil_iff] at hRB
    exact absurd hRB hB
  | cons b bs =>
    rw [List.cons_append]
    by_cases hb : b = '-'
    · simp [stripLeadHyphen, hb, List.reverse_append]
    · simp [stripLeadHyphen, hb, List.reverse_append]

theorem slug_ne_hyphen {a : Char} (h : isSlugChar a = true) : ¬a = '-' := by
  intro ha
  subst ha
  exact absurd h (by decide)

theorem stripTrailHyphen_id_of_no_hyphen {l : List Char} (h : '-' ∉ l) :
    stripTrailHyphen l = l := by
  unfold stripTrailHyphen
  cases hr : l.reverse with
  | nil =>
    rw [List.reverse_eq_nil_iff] at hr
    subst hr; rfl
  | cons b bs =>
    have hb : b ∈ l := by
      rw [← List.mem_reverse, hr]
      exact List.mem_cons_self b bs
    rw [stripLeadHyphen_of_head_ne (fun hbe => h (hbe ▸ hb)), ← hr,
      List.reverse_reverse]

theorem slugRunsGo_nonslug_run_flush {run : List Char}
    (hall : ∀ a ∈ run, isSlugChar a = false) (hne : run ≠ [])
    {cur : List Char} (hcur : cur ≠ []) (t : List Char) :
    slugRunsGo cur (run ++ t) = cur.reverse :: slugRunsGo [] t := by
  cases run with
  | nil => exact absurd rfl hne
  | cons c cs =>
    rw [List.cons_append, slugRunsGo_nonslug_head (hall c (List.mem_cons_self c cs))]
    rw [if_neg (by simpa [List.isEmpty_iff] using hcur)]
    rw [slugRunsGo_nonslug_run_empty (fun a ha => hall a (List.mem_cons_of_mem _ ha)) t]

/-- Core equivalence behind slug generation: the source's
replace-then-strip pipeline produces exactly the maximal alphanumeric
runs joined by single hyphens. -/

theorem stripEdge_hyphenate_eq_runs (m : List Char) :
    stripEdgeHyphens (hyphenateRuns m) = List.intercalate ['-'] (slugRuns m) := by
  suffices H : ∀ n (m : List Char), m.length ≤ n →
      stripEdgeHyphens (hyphenateRuns m) = List.intercalate ['-'] (slugRuns m) from
    H m.length m le_rfl
  intro n
  induction n with
  | zero =>
    intro m hm
    have h0 : m.length = 0 := Nat.le_zero.mp hm
    rw [List.length_eq_zero] at h0
    subst h0
    rfl
  | succ n ih =>
    intro m hm
    cases m with
    | nil => rfl
    | cons c t =>
      by_cases hc : isSlugChar c = true
      · -- m starts with an alphanumeric run
        have hsplit : c :: t = (c :: t.takeWhile isSlugChar) ++ t.dropWhile isSlugChar := by
          rw [List.cons_append, List.takeWhile_append_dropWhile]
        have hallrun : ∀ a ∈ c :: t.takeWhile isSlugChar, isSlugChar a = true := by
          intro a ha
          rcases List.mem_cons.mp ha with h1 | h1
          · exact h1 ▸ hc
          · exact List.mem_takeWhile_imp h1
        have hnorun : '-' ∉ c :: t.takeWhile isSlugChar := by
          intro hmem
          exact slug_ne_hyphen (hallrun '-' hmem) rfl
        rw [hsplit]
        rw [show hyphenateRuns ((c :: t.takeWhile isSlugChar) ++ t.dropWhile isSlugChar) =
            (c :: t.takeWhile isSlugChar) ++ hrGo false (t.dropWhile isSlugChar) from
          hrGo_slug_run hallrun false _ (by simp)]
        rw [show slugRuns ((c :: t.takeWhile isSlugChar) ++ t.dropWhile isSlugChar) =
            slugRunsGo ((c :: t.takeWhile isSlugChar).reverse) (t.dropWhile isSlugChar) by
          unfold slugRuns
          rw [slugRunsGo_slug_run hallrun [] _, List.append_nil]]
        have hlen1 : (t.dropWhile isSlugChar).length ≤ t.length :=
          (List.dropWhile_suffix isSlugChar).length_le
        cases hdw : t.dropWhile isSlugChar with
        | nil =>
          rw [show hrGo false ([] : List Char) = [] from rfl, List.append_nil]
          rw [show stripEdgeHyphens (c :: t.takeWhile isSlugChar) =
              c :: t.takeWhile isSlugChar by
            unfold stripEdgeHyphens
            rw [stripLeadHyphen_of_head_ne (slug_ne_hyphen hc)]
            exact stripTrailHyphen_id_of_no_hyphen hnorun]
          rw [show slugRunsGo ((c :: t.takeWhile isSlugChar).reverse) [] =
              [c :: t.takeWhile isSlugChar] by
            unfold slugRunsGo
            simp]
          rw [intercalate_hyphen_single]
        | cons d u =>
          have hd : isSlugChar d = false := by
            have := List.head?_dropWhile_not isSlugChar t
            rw [hdw] at this
            simpa using this
          -- the non-alphanumeric run after the first run
          have hsplit2 : d :: u = (d :: u.takeWhile (fun a => !isSlugChar a)) ++
              u.dropWhile (fun a => !isSlugChar a) := by
            rw [List.cons_append, List.takeWhile_append_dropWhile]
          have hallns : ∀ a ∈ d :: u.takeWhile (fun a => !isSlugChar a),
              isSlugChar a = false := by
            intro a ha
            rcases List.mem_cons.mp ha with h1 | h1
            · exact h1 ▸ hd
            · have := List.mem_takeWhile_imp h1
              simpa using this
          have hu' : u.dropWhile (fun a => !isSlugChar a) = [] ∨
              ∃ e u2, u.dropWhile (fun a => !isSlugChar a) = e :: u2 ∧
                isSlugChar e = true := by
            cases hue : u.dropWhile (fun a => !isSlugChar a) with
            | nil => exact Or.inl rfl
            | cons e u2 =>
              refine Or.inr ⟨e, u2, rfl, ?_⟩
              have := List.head?_dropWhile_not (fun a => !isSlugChar a) u
              rw [hue] at this
              simpa using this
          rw [hsplit2]
          rw [show hrGo false ((d :: u.takeWhile (fun a => !isSlugChar a)) ++
              u.dropWhile (fun a => !isSlugChar a)) =
              '-' :: hrGo true (u.dropWhile (fun a => !isSlugChar a)) from
            hrGo_nonslug_run_false hallns (by simp) _]
          rw [hrGo_true_eq_false hu']
          rw [show slugRunsGo ((c :: t.takeWhile isSlugChar).reverse)
              ((d :: u.takeWhile (fun a => !isSlugChar a)) ++
                u.dropWhile (fun a => !isSlugChar a)) =
              (c :: t.takeWhile isSlugChar) ::
                slugRunsGo [] (u.dropWhile (fun a => !isSlugChar a)) by
            rw [slugRunsGo_nonslug_run_flush hallns (by simp) (by simp) _]
            rw [List.reverse_reverse]]
          have hlenu : (u.dropWhile (fun a => !isSlugChar a)).length ≤ n := by
            have h1 : (u.dropWhile (fun a => !isSlugChar a)).length ≤ u.length :=
              (List.dropWhile_suffix _).length_le
            have h2 : (d :: u).length ≤ t.length := by
              rw [← hdw]
              exact (List.dropWhile_suffix isSlugChar).length_le
            simp only [List.length_cons] at h2 hm
            omega
          have ihu := ih (u.dropWhile (fun a => !isSlugChar a)) hlenu
          rcases hu' with hue | ⟨e, u2, hue, he⟩
          · rw [hue]
            rw [show hrGo false ([] : List Char) = [] from rfl]
            rw [show stripEdgeHyphens ((c :: t.takeWhile isSlugChar) ++ ['-']) =
                c :: t.takeWhile isSlugChar by
              unfold stripEdgeHyphens
              rw [List.cons_append, stripLeadHyphen_of_head_ne (slug_ne_hyphen hc)]
              rw [← List.cons_append]
              rw [stripTrailHyphen_append (by simp)]
              rw [show stripTrailHyphen ['-'] = [] from rfl, List.append_nil]]
            rw [show slugRunsGo ([] : List Char) ([] : List Char) = [] from rfl]
            rw [intercalate_hyphen_single]
          · have hX : hrGo false (u.dropWhile (fun a => !isSlugChar a)) =
                e :: hrGo false u2 := by
              rw [hue, hrGo_slug_head he]
            have hXne : hrGo false (u.dropWhile (fun a => !isSlugChar a)) ≠ [] := by
              rw [hX]; simp
            rw [show stripEdgeHyphens ((c :: t.takeWhile isSlugChar) ++
                '-' :: hrGo false (u.dropWhile (fun a => !isSlugChar a))) =
                (c :: t.takeWhile isSlugChar) ++ '-' ::
                  stripTrailHyphen (hrGo false (u.dropWhile (fun a => !isSlugChar a))) by
              unfold stripEdgeHyphens
              rw [List.cons_append, stripLeadHyphen_of_head_ne (slug_ne_hyphen hc)]
              rw [← List.cons_append]
              rw [stripTrailHyphen_append (by simp)]
              rw [show ('-' :: hrGo false (u.dropWhile (fun a => !isSlugChar a))) =
                ['-'] ++ hrGo false (u.dropWhile (fun a => !isSlugChar a)) from rfl]
              rw [stripTrailHyphen_append hXne]
              simp]
            have hIH2 : stripTrailHyphen
                (hrGo false (u.dropWhile (fun a => !isSlugChar a))) =
                List.intercalate ['-']
                  (slugRunsGo [] (u.dropWhile (fun a => !isSlugChar a))) := by
              have h1 := ihu
              unfold stripEdgeHyphens hyphenateRuns at h1
              rw [hX] at h1 ⊢
              rw [stripLeadHyphen_of_head_ne (slug_ne_hyphen he)] at h1
              exact h1
            rw [hIH2]
            have hrs : slugRunsGo [] (u.dropWhile (fun a => !isSlugChar a)) ≠ [] := by
              rw [hue]
              rw [show slugRunsGo [] (e :: u2) = slugRunsGo [e] u2 by
                simp [slugRunsGo, he]]
              exact slugRunsGo_ne_nil (by simp) u2
            rw [intercalate_hyphen_cons _ hrs]
      · -- m starts with a non-alphanumeric run
        have hcf : isSlugChar c = false := Bool.not_eq_true _ ▸ hc
        have hsplit : c :: t = (c :: t.takeWhile (fun a => !isSlugChar a)) ++
            t.dropWhile (fun a => !isSlugChar a) := by
          rw [List.cons_append, List.takeWhile_append_dropWhile]
        have hallns : ∀ a ∈ c :: t.takeWhile (fun a => !isSlugChar a),
            isSlugChar a = false := by
          intro a ha
          rcases List.mem_cons.mp ha with h1 | h1
          · exact h1 ▸ hcf
          · have := List.mem_takeWhile_imp h1
            simpa using this
        have ht' : t.dropWhile (fun a => !isSlugChar a) = [] ∨
            ∃ e u2, t.dropWhile (fun a => !isSlugChar a) = e :: u2 ∧
              isSlugChar e = true := by
          cases hte : t.dropWhile (fun a => !isSlugChar a) with
          | nil => exact Or.inl rfl
          | cons e u2 =>
            refine Or.inr ⟨e, u2, rfl, ?_⟩
            have := List.head?_dropWhile_not (fun a => !isSlugChar a) t
            rw [hte] at this
            simpa using this
        rw [hsplit]
        rw [show hyphenateRuns ((c :: t.takeWhile (fun a => !isSlugChar a)) ++
            t.dropWhile (fun a => !isSlugChar a)) =
            '-' :: hrGo true (t.dropWhile (fun a => !isSlugChar a)) from
          hrGo_nonslug_run_false hallns (by simp) _]
        rw [hrGo_true_eq_false ht']
        rw [show slugRuns ((c :: t.takeWhile (fun a => !isSlugChar a)) ++
            t.dropWhile (fun a => !isSlugChar a)) =
            slugRunsGo [] (t.dropWhile (fun a => !isSlugChar a)) from
          slugRunsGo_nonslug_run_empty hallns _]
        have hlent : (t.dropWhile (fun a => !isSlugChar a)).length ≤ n := by
          have h1 : (t.dropWhile (fun a => !isSlugChar a)).length ≤ t.length :=
            (List.dropWhile_suffix _).length_le
          simp only [List.length_cons] at hm
          omega
        have iht := ih (t.dropWhile (fun a => !isSlugChar a)) hlent
        rcases ht' with hte | ⟨e, u2, hte, he⟩
        · rw [hte]
          rfl
        · have hX : hrGo false (t.dropWhile (fun a => !isSlugChar a)) =
              e :: hrGo false u2 := by
            rw [hte, hrGo_slug_head he]
          rw [show stripEdgeHyphens ('-' ::
              hrGo false (t.dropWhile (fun a => !isSlugChar a))) =
              stripTrailHyphen (hrGo false (t.dropWhile (fun a => !isSlugChar a))) by
            unfold stripEdgeHyphens
            rw [show stripLeadHyphen ('-' ::
              hrGo false (t.dropWhile (fun a => !isSlugChar a))) =
              hrGo false (t.dropWhile (fun a => !isSlugChar a)) by
                simp [stripLeadHyphen]]]
          unfold stripEdgeHyphens hyphenateRuns at iht
          rw [hX] at iht ⊢
          rw [stripLeadHyphen_of_head_ne (slug_ne_hyphen he)] at iht
          exact iht

/-- The source slug generator agrees with the specification's
characterization on every title. -/

theorem createSlug_eq_spec (title : String) : createSlug title = slugifySpec title := by
  unfold createSlug slugifySpec
  by_cases h : jsToLower title.data = "index".data
  · rw [if_pos h, if_pos h]
  · rw [if_neg h, if_neg h]
    exact congrArg String.mk (congrArg (List.cons '/')
      (stripEdge_hyphenate_eq_runs _))

/-!
Content standardization and sanitization (src/lib/webflow-fetcher.ts).
-/

/-- Models `.replace(/\n\s*\n/g, "\n")`: a newline followed by a
whitespace run containing another newline collapses (greedily, through
the last newline of the run) to a single newline; the counter discards
the consumed characters of a match. -/

example : standardizeContent "a   b\n\nc [x] *y* (https://foo.com) d" = "a b c x y  d" := by
  decide

example : sanitizeContent
    "keep [__wf_reserved_inherit](https://cdn.prod.website-files.com/img.png) this" =
    "keep  this" := by decide

/-!
The CMS document tree and the content extractor
(src/lib/webflow-fetcher.ts, `extractContent`).
-/

/-- Text payload of a document node. -/

example : extractContent id
    [textNode "<div class=\"page-title\">Home</div>" "Home",
     textNode "<p>Welcome</p>" "Welcome"] =
    [("Home", { title := "Home", slug := "/home", content := "<p>Welcome</p>" })] := by
  decide

example : componentFetchRun (fun _ => []) 5 [] [instNode "C1", instNode "C1"] =
    (["C1"], ["C1", "C1"]) := by decide

example : componentFetchRun (fun c => if c = "C2" then [instNode "C1"] else []) 5 []
    [instNode "C1", instNode "C2"] = (["C2", "C1"], ["C1", "C2"]) := by decide

example : processPage id (fun _ => []) 5
    (Except.ok (DomResponse.wrapped [textNode "<div class=\"page-title\">Home</div>" "Home"]))
    (Except.ok []) (Except.ok ⟨none, none⟩) =
    Except.ok
      { pages := [("Home", { title := "Home", slug := "/home", content := "" })]
        caseStudies := []
        systemPrompt := { styleGuidelines := "", questionPatterns := "" } } := by decide

/-- Folding the extraction step over an event sequence. -/

theorem foldEvents_append (td : String → String) (st : ExtractState)
    (es1 es2 : List ExtractEv) :
    foldEvents td st (es1 ++ es2) = foldEvents td (foldEvents td st es1) es2 :=
  List.foldl_append _ _ _ _

theorem visit_eq_fold_aux (k : Nat) :
    (∀ (n : WNode) (td : String → String) (st : ExtractState), sizeOf n ≤ k →
      extractVisit td st n = foldEvents td st (eventsOfNode n)) ∧
    (∀ (l : List WNode) (td : String → String) (st : ExtractState), sizeOf l ≤ k →
      extractVisitList td st l = foldEvents td st (eventsOfList l)) := by
  induction k with
  | zero =>
    constructor
    · intro n td st hn
      cases n with
      | node ty cid tx ch => simp at hn
    · intro l td st hl
      cases l with
      | nil => simp at hl
      | cons n rest => simp at hl
  | succ k ih =>
    obtain ⟨ihn, ihl⟩ := ih
    constructor
    · intro n td st hn
      cases n with
      | node ty cid tx ch =>
        have hch : sizeOf ch ≤ k := by
          simp at hn; omega
        show extractVisitList td _ ch = _
        rw [ihl ch td _ hch]
        rw [show eventsOfNode (WNode.node ty cid tx ch) =
          (eventOf (WNode.node ty cid tx ch)).toList ++ eventsOfList ch from rfl]
        rw [foldEvents_append]
        cases hev : eventOf (WNode.node ty cid tx ch) with
        | none => rfl
        | some e => rfl
    · intro l td st hl
      cases l with
      | nil => rfl
      | cons n rest =>
        have hn : sizeOf n ≤ k := by simp at hl; omega
        have hrest : sizeOf rest ≤ k := by simp at hl; omega
        show extractVisitList td (extractVisit td st n) rest = _
        rw [ihl rest td _ hrest, ihn n td st hn]
        rw [show eventsOfList (n :: rest) = eventsOfNode n ++ eventsOfList rest from rfl]
        rw [foldEvents_append]

/-- The extractor's recursive traversal equals the fold of the step
function over the pre-order event sequence. -/

theorem extractVisitList_eq_fold (td : String → String) (st : ExtractState)
    (nodes : List WNode) :
    extractVisitList td st nodes = foldEvents td st (eventsOfList nodes) :=
  (visit_eq_fold_aux (sizeOf nodes)).2 nodes td st le_rfl

theorem getKey_setKey {α : Type} (m : List (String × α)) (k k' : String) (v : α) :
    getKey (setKey m k v) k' = if k' = k then some v else getKey m k' := by
  induction m with
  | nil =>
    by_cases h : k' = k
    · simp [setKey, getKey, h]
    · simp [setKey, getKey, h, Ne.symm h]
  | cons kv rest ih =>
    obtain ⟨k0, v0⟩ := kv
    by_cases h0 : k0 = k
    · subst h0
      by_cases h : k' = k0
      · subst h
        simp [setKey, getKey]
      · simp [setKey, getKey, h, Ne.symm h]
    · by_cases h : k' = k0
      · subst h
        simp [setKey, getKey, h0]
      · simp [setKey, getKey, h0, h, Ne.symm h, ih]

theorem getKey_appendContent (m : List (String × PageContent)) (k k' : String)
    (s : String) :
    getKey (appendContent m k s) k' =
      if k' = k then (getKey m k).map (fun v => { v with content := v.content ++ s })
      else getKey m k' := by
  induction m with
  | nil =>
    by_cases h : k' = k
    · simp [appendContent, getKey, h]
    · simp [appendContent, getKey, h, Ne.symm h]
  | cons kv rest ih =>
    obtain ⟨k0, v0⟩ := kv
    by_cases h0 : k0 = k
    · subst h0
      by_cases h : k' = k0
      · subst h
        simp [appendContent, getKey]
      · simp [appendContent, getKey, h, Ne.symm h]
    · by_cases h : k' = k0
      · subst h
        simp [appendContent, getKey, h0]
      · simp [appendContent, getKey, h0, h, Ne.symm h, ih]

/-- `Object.fromEntries` built by a left fold of property assignment:
the value under a key is the value of the last pair carrying that key,
falling back to the initial object for untouched keys. -/

theorem getKey_foldl_setKey {α : Type} (pairs : List (String × α))
    (m : List (String × α)) (k : String) :
    getKey (pairs.foldl (fun acc kv => setKey acc kv.1 kv.2) m) k =
      ((pairs.reverse.find? (fun kv => kv.1 == k)).map Prod.snd).or (getKey m k) := by
  induction pairs generalizing m with
  | nil => simp
  | cons p rest ih =>
    rw [List.foldl_cons, ih, List.reverse_cons, List.find?_append]
    cases hf : rest.reverse.find? (fun kv => kv.1 == k) with
    | some x => simp
    | none =>
      simp only [Option.none_or, Option.map_none]
      rw [getKey_setKey]
      by_cases hk : p.1 = k
      · simp [List.find?_cons, hk]
      · have hk' : ¬k = p.1 := fun h => hk h.symm
        simp [List.find?_cons, hk, hk']

theorem mem_keys_setKey {α : Type} {m : List (String × α)} {k a : String} {v : α}
    (h : a ∈ (setKey m k v).map Prod.fst) : a ∈ m.map Prod.fst ∨ a = k := by
  induction m with
  | nil =>
    simp [setKey] at h
    exact Or.inr h
  | cons kv rest ih =>
    obtain ⟨k0, v0⟩ := kv
    by_cases h0 : k0 = k
    · subst h0
      rw [show setKey ((k0, v0) :: rest) k0 v = (k0, v) :: rest by
        simp [setKey]] at h
      simp only [List.map_cons, List.mem_cons] at h
      simp only [List.map_cons, List.mem_cons]
      tauto
    · rw [show setKey ((k0, v0) :: rest) k v = (k0, v0) :: setKey rest k v by
        simp [setKey, h0]] at h
      simp only [List.map_cons, List.mem_cons] at h
      simp only [List.map_cons, List.mem_cons]
      rcases h with h1 | h1
      · exact Or.inl (Or.inl h1)
      · rcases ih h1 with h2 | h2
        · exact Or.inl (Or.inr h2)
        · exact Or.inr h2

theorem keys_setKey_nodup {α : Type} {m : List (String × α)} (k : String) (v : α)
    (h : (m.map Prod.fst).Nodup) : ((setKey m k v).map Prod.fst).Nodup := by
  induction m with
  | nil =>
    show ([(k, v)].map Prod.fst).Nodup
    simp
  | cons kv rest ih =>
    obtain ⟨k0, v0⟩ := kv
    simp only [List.map_cons, List.nodup_cons] at h
    by_cases h0 : k0 = k
    · subst h0
      rw [show setKey ((k0, v0) :: rest) k0 v = (k0, v) :: rest by
        simp [setKey]]
      simp only [List.map_cons, List.nodup_cons]
      exact h
    · rw [show setKey ((k0, v0) :: rest) k v = (k0, v0) :: setKey rest k v by
        simp [setKey, h0]]
      simp only [List.map_cons, List.nodup_cons]
      refine ⟨?_, ih h.2⟩
      intro hmem
      rcases mem_keys_setKey hmem with h1 | h1
      · exact h.1 h1
      · exact h0 h1

theorem keys_foldl_setKey_nodup {α : Type} (pairs : List (String × α))
    {m : List (String × α)} (h : (m.map Prod.fst).Nodup) :
    ((pairs.foldl (fun acc kv => setKey acc kv.1 kv.2) m).map Prod.fst).Nodup := by
  induction pairs generalizing m with
  | nil => exact h
  | cons p rest ih =>
    rw [List.foldl_cons]
    exact ih (keys_setKey_nodup p.1 p.2 h)

/-- Content events before any marker leave the extraction state
unchanged (no page to attribute them to). -/

theorem foldEvents_content_of_none (td : String → String) {st : ExtractState}
    (hcp : st.currentPage = none) :
    ∀ hs : List ExtractEv, (∀ e ∈ hs, ∃ h, e = ExtractEv.content h) →
      foldEvents td st hs = st := by
  intro hs
  induction hs with
  | nil => intro _; rfl
  | cons e rest ih =>
    intro hall
    obtain ⟨h, rfl⟩ := hall e (List.mem_cons_self e rest)
    show foldEvents td (extractStep td st (ExtractEv.content h)) rest = st
    rw [show extractStep td st (ExtractEv.content h) = st by
      unfold extractStep
      rw [hcp]]
    exact ih (fun e he => hall e (List.mem_cons_of_mem _ he))

/-- A single extraction step never removes a page entry. -/

theorem getKey_isSome_extractStep (td : String → String) (st : ExtractState)
    (e : ExtractEv) (t : String) (h : (getKey st.pages t).isSome = true) :
    (getKey (extractStep td st e).pages t).isSome = true := by
  cases e with
  | marker txt =>
    show (getKey (setKey st.pages (jsTrimString txt) _) t).isSome = true
    rw [getKey_setKey]
    by_cases hk : t = jsTrimString txt
    · simp [hk]
    · simp only [if_neg hk]
      exact h
  | content html =>
    unfold extractStep
    cases hcp : st.currentPage with
    | none => exact h
    | some T =>
      simp only []
      rw [getKey_appendContent]
      by_cases hk : t = T
      · subst hk
        simp only [if_pos rfl]
        simpa using h
      · simp only [if_neg hk]
        exact h

theorem cacheRun_nil (f : String → List WNode) (fuel : Nat)
    (entry cache : List String) :
    cacheRun f fuel entry cache [] = (cache, []) := by
  cases fuel <;> rfl

theorem cacheRun_cons_mem (f : String → List WNode) (fu : Nat)
    {entry : List String} (cache : List String) {c : String} (rest : List String)
    (h : c ∈ entry) :
    cacheRun f (fu + 1) entry cache (c :: rest) =
      ((cacheRun f fu entry
          (cacheRun f fu cache cache (pendingIds (f c))).1 rest).1,
        (cacheRun f fu cache cache (pendingIds (f c))).2 ++
        (cacheRun f fu entry
          (cacheRun f fu cache cache (pendingIds (f c))).1 rest).2) := by
  simp [cacheRun, h]

theorem cacheRun_cons_not_mem (f : String → List WNode) (fu : Nat)
    {entry : List String} (cache : List String) {c : String} (rest : List String)
    (h : c ∉ entry) :
    cacheRun f (fu + 1) entry cache (c :: rest) =
      ((cacheRun f fu entry
          (cacheRun f fu (cache.insert c) (cache.insert c) (pendingIds (f c))).1
          rest).1,
        c :: ((cacheRun f fu (cache.insert c) (cache.insert c)
            (pendingIds (f c))).2 ++
          (cacheRun f fu entry
            (cacheRun f fu (cache.insert c) (cache.insert c)
              (pendingIds (f c))).1 rest).2)) := by
  simp [cacheRun, h]

theorem cacheRun_cache_mono (f : String → List WNode) :
    ∀ (fuel : Nat) (pend entry cache : List String),
      cache ⊆ (cacheRun f fuel entry cache pend).1 := by
  intro fuel
  induction fuel with
  | zero =>
    intro pend entry cache
    cases pend with
    | nil => rw [cacheRun_nil]; exact fun _ h => h
    | cons c rest => exact fun _ h => h
  | succ fu ih =>
    intro pend entry cache
    cases pend with
    | nil => rw [cacheRun_nil]; exact fun _ h => h
    | cons c rest =>
      by_cases hc : c ∈ entry
      · rw [cacheRun_cons_mem f fu cache rest hc]
        exact fun a ha => ih rest entry _ (ih (pendingIds (f c)) cache cache ha)
      · rw [cacheRun_cons_not_mem f fu cache rest hc]
        exact fun a ha => ih rest entry _
          (ih (pendingIds (f c)) (cache.insert c) (cache.insert c)
            (List.mem_insert_of_mem ha))

theorem cacheRun_log_fresh (f : String → List WNode) :
    ∀ (fuel : Nat) (pend entry cache σ : List String), σ ⊆ entry → σ ⊆ cache →
      ∀ c ∈ (cacheRun f fuel entry cache pend).2, c ∉ σ := by
  intro fuel
  induction fuel with
  | zero =>
    intro pend entry cache σ _ _ c hc
    cases pend with
    | nil => rw [cacheRun_nil] at hc; simp at hc
    | cons x rest => simp [cacheRun] at hc
  | succ fu ih =>
    intro pend entry cache σ hσe hσc c hc
    cases pend with
    | nil => rw [cacheRun_nil] at hc; simp at hc
    | cons x rest =>
      by_cases hx : x ∈ entry
      · rw [cacheRun_cons_mem f fu cache rest hx] at hc
        rcases List.mem_append.mp hc with h1 | h1
        · exact ih (pendingIds (f x)) cache cache σ hσc hσc c h1
        · exact ih rest entry _ σ hσe
            (hσc.trans (cacheRun_cache_mono f fu (pendingIds (f x)) cache cache)) c h1
      · rw [cacheRun_cons_not_mem f fu cache rest hx] at hc
        rcases List.mem_cons.mp hc with h1 | h1
        · subst h1
          exact fun hmem => hx (hσe hmem)
        · rcases List.mem_append.mp h1 with h2 | h2
          · have hsub : σ ⊆ cache.insert x :=
              fun a ha => List.mem_insert_of_mem (hσc ha)
            exact ih (pendingIds (f x)) (cache.insert x) (cache.insert x) σ
              hsub hsub c h2
          · have hsub : σ ⊆ (cacheRun f fu (cache.insert x) (cache.insert x)
                (pendingIds (f x))).1 :=
              fun a ha => cacheRun_cache_mono f fu (pendingIds (f x)) _ _
                (List.mem_insert_of_mem (hσc ha))
            exact ih rest entry _ σ hσe hsub c h2

theorem cacheRun_flat_log (f : String → List WNode) :
    ∀ (pend : List String) (fuel : Nat) (entry cache : List String),
      (∀ c ∈ pend, pendingIds (f c) = []) → pend.length ≤ fuel →
      (cacheRun f fuel entry cache pend).2 =
        pend.filter (fun c => !decide (c ∈ entry)) := by
  intro pend
  induction pend with
  | nil =>
    intro fuel entry cache _ _
    rw [cacheRun_nil]
    rfl
  | cons c rest ih =>
    intro fuel entry cache hflat hlen
    cases fuel with
    | zero => simp at hlen
    | succ fu =>
      have hflatc : pendingIds (f c) = [] := hflat c (List.mem_cons_self c rest)
      have hrest : rest.length ≤ fu := by simp at hlen; omega
      have hfrest : ∀ a ∈ rest, pendingIds (f a) = [] :=
        fun a ha => hflat a (List.mem_cons_of_mem _ ha)
      by_cases hc : c ∈ entry
      · rw [cacheRun_cons_mem f fu cache rest hc, hflatc, cacheRun_nil]
        simp only []
        rw [ih fu entry cache hfrest hrest]
        rw [List.filter_cons]
        simp [hc]
      · rw [cacheRun_cons_not_mem f fu cache rest hc, hflatc, cacheRun_nil]
        simp only []
        rw [ih fu entry (cache.insert c) hfrest hrest]
        rw [List.filter_cons]
        simp [hc]

example : convertHtmlToMarkdown "<p>Hello&nbsp;  world</p>" = "Hello world" := by decide

/-!
The claims.
-/

/-- C1 (counterexample): with a document tree of two sibling
component-instance nodes both referencing componentId "C1", resolved
from an empty cache, the fetch collaborator for "C1" is invoked twice in
one resolution pass, not at most once: both siblings' cache checks run
in the synchronous phase of `Promise.all(nodes.map(processNode))`,
before either fetch resolves and `componentCache.set` runs, so both
miss. -/

theorem claim_C1_counterexample :
    ¬((componentFetchRun (fun _ => []) 5 []
        [instNode "C1", instNode "C1"]).2.count "C1" ≤ 1) := by decide

/-- C1 (amended): a component-instance occurrence triggers a fetch iff
its componentId is absent from the cache at its synchronous-phase check;
all checks of a batch precede that batch's cache writes, so every
occurrence of an id uncached at batch entry fetches. With component
definitions free of nested instances the fetch log is exactly the
pre-order occurrence list filtered by the entry cache — in particular
n sibling references to an uncached id trigger n fetches, not one.
Sibling nodes referencing the same id do receive structurally equal
resolved children. -/

theorem claim_C1_amended :
    (∀ (f : String → List WNode) (pend : List String) (fuel : Nat)
      (entry cache : List String),
      (∀ c ∈ pend, pendingIds (f c) = []) → pend.length ≤ fuel →
      (cacheRun f fuel entry cache pend).2 =
        pend.filter (fun c => !decide (c ∈ entry))) ∧
    (∀ (f : String → List WNode) (fuel : Nat) (c : String)
      (tx1 tx2 : Option TextPayload) (ch1 ch2 : List WNode), ¬c = "" →
      (resolveNode f (fuel + 1)
        (WNode.node "component-instance" (some c) tx1 ch1)).children =
      (resolveNode f (fuel + 1)
        (WNode.node "component-instance" (some c) tx2 ch2)).children) := by
  constructor
  · exact fun f => cacheRun_flat_log f
  · intro f fuel c tx1 tx2 ch1 ch2 hc
    simp [resolveNode, WNode.children, hc]

/-- C1 (witness). -/

theorem claim_C1_witness :
    ((∀ c ∈ (["C1", "C1"] : List String),
        pendingIds ((fun _ => ([] : List WNode)) c) = []) ∧
      (["C1", "C1"] : List String).length ≤ 5 ∧ ¬("C1" : String) = "") ∧
    ((cacheRun (fun _ => []) 5 [] [] ["C1", "C1"]).2 =
        (["C1", "C1"] : List String).filter
          (fun c => !decide (c ∈ ([] : List String))) ∧
      (resolveNode (fun _ => []) 3
        (WNode.node "component-instance" (some "C1") none [])).children =
      (resolveNode (fun _ => []) 3
        (WNode.node "component-instance" (some "C1") none
          [textNode "x" "y"])).children) :=
  ⟨⟨by decide, by decide, by decide⟩,
   claim_C1_amended.1 (fun _ => []) ["C1", "C1"] 5 [] [] (by decide) (by decide),
   claim_C1_amended.2 (fun _ => []) 2 "C1" none none [] [textNode "x" "y"] (by decide)⟩

/-- C2: the extractor's recursive depth-first pre-order traversal equals
the fold of the step function over the pre-order event sequence (first
conjunct); text events before the first page-title marker leave the
extraction state — and hence every page's content — untouched (second
conjunct); and a text event visited while the current page is `T`
appends its converted content, in encounter order, to page `T` alone,
leaving every other page's entry unchanged (third conjunct). -/

theorem claim_C2_bucketing :
    (∀ (td : String → String) (st : ExtractState) (nodes : List WNode),
      extractVisitList td st nodes = foldEvents td st (eventsOfList nodes)) ∧
    (∀ (td : String → String) (hs es : List ExtractEv),
      (∀ e ∈ hs, ∃ h, e = ExtractEv.content h) →
      foldEvents td initExtractState (hs ++ es) =
        foldEvents td initExtractState es) ∧
    (∀ (td : String → String) (st : ExtractState) (T h : String),
      st.currentPage = some T →
      (extractStep td st (ExtractEv.content h)).currentPage = some T ∧
      ∀ t, getKey (extractStep td st (ExtractEv.content h)).pages t =
        if t = T then
          (getKey st.pages t).map (fun v =>
            { v with content := v.content ++ ((sanitizeContent (td h)).append "\n") })
        else getKey st.pages t) := by
  refine ⟨extractVisitList_eq_fold, ?_, ?_⟩
  · intro td hs es hall
    rw [foldEvents_append]
    rw [foldEvents_content_of_none td rfl hs hall]
  · intro td st T h hcp
    constructor
    · simp [extractStep, hcp]
    · intro t
      simp only [extractStep, hcp]
      by_cases ht : t = T
      · subst ht
        rw [getKey_appendContent]
      · rw [getKey_appendContent]
        simp [ht]

/-- C2 (witness). -/

theorem claim_C2_witness :
    (∀ e ∈ [ExtractEv.content "x"], ∃ h, e = ExtractEv.content h) ∧
    foldEvents id initExtractState
        ([ExtractEv.content "x"] ++ [ExtractEv.marker "Home"]) =
      foldEvents id initExtractState [ExtractEv.marker "Home"] ∧
    ({ pages := [("Home", { title := "Home", slug := "/home", content := "" })],
       currentPage := some "Home" } : ExtractState).currentPage = some "Home" ∧
    (extractStep id
      { pages := [("Home", { title := "Home", slug := "/home", content := "" })],
        currentPage := some "Home" }
      (ExtractEv.content "a")).currentPage = some "Home" :=
  ⟨by
    intro e he
    rcases List.mem_singleton.mp he with rfl
    exact ⟨"x", rfl⟩,
   claim_C2_bucketing.2.1 id [ExtractEv.content "x"] [ExtractEv.marker "Home"]
     (by
       intro e he
       rcases List.mem_singleton.mp he with rfl
       exact ⟨"x", rfl⟩),
   rfl,
   (claim_C2_bucketing.2.2 id
     { pages := [("Home", { title := "Home", slug := "/home", content := "" })],
       currentPage := some "Home" } "Home" "a" rfl).1⟩

/-- C3: the HTML normalizer is idempotent on every input string. -/

theorem claim_C3_normalizer_idempotent (s : String) :
    convertHtmlToMarkdown (convertHtmlToMarkdown s) = convertHtmlToMarkdown s :=
  congrArg String.mk (convertList_idem s.data)

/-- C4: if any of the three top-level fetches fails, `processPage`
produces a single failure outcome (the error propagates through the
`Promise.all` join) and never a partial or degraded success value. -/

theorem claim_C4_all_or_nothing (td : String → String) (f : String → List WNode)
    (fuel : Nat) (domFetch : Except FetchErr DomResponse)
    (caseStudiesFetch : Except FetchErr (List WebflowCaseStudyItem))
    (systemPromptFetch : Except FetchErr WebflowSystemPromptItem)
    (h : (∃ e, domFetch = Except.error e) ∨ (∃ e, caseStudiesFetch = Except.error e) ∨
      (∃ e, systemPromptFetch = Except.error e)) :
    ∃ e, processPage td f fuel domFetch caseStudiesFetch systemPromptFetch =
      Except.error e := by
  rcases h with ⟨e, rfl⟩ | ⟨e, rfl⟩ | ⟨e, rfl⟩
  · exact ⟨e, rfl⟩
  · cases domFetch with
    | error e' => exact ⟨e', rfl⟩
    | ok dv => exact ⟨e, rfl⟩
  · cases domFetch with
    | error e' => exact ⟨e', rfl⟩
    | ok dv =>
      cases caseStudiesFetch with
      | error e' => exact ⟨e', rfl⟩
      | ok csv => exact ⟨e, rfl⟩

/-- C4 (witness). -/

theorem claim_C4_witness :
    ((∃ e, (Except.error (FetchErr.fetchFailed "pages/ctx/dom") :
        Except FetchErr DomResponse) = Except.error e) ∨
      (∃ e, (Except.ok [] : Except FetchErr (List WebflowCaseStudyItem)) =
        Except.error e) ∨
      (∃ e, (Except.ok ⟨none, none⟩ : Except FetchErr WebflowSystemPromptItem) =
        Except.error e)) ∧
    ∃ e, processPage id (fun _ => []) 1
        (Except.error (FetchErr.fetchFailed "pages/ctx/dom")) (Except.ok [])
        (Except.ok ⟨none, none⟩) = Except.error e :=
  ⟨Or.inl ⟨_, rfl⟩,
   claim_C4_all_or_nothing id (fun _ => []) 1 _ _ _ (Or.inl ⟨_, rfl⟩)⟩

/-- C5 (counterexample): `processPage` does not tolerate the bare-array
document-tree shape: on equivalent content, the wrapped shape succeeds
while the bare shape fails (the `.nodes` property of a bare array is
undefined, and `nodes.map` throws), so the two shapes do not produce the
same pages output. -/

theorem claim_C5_counterexample :
    processPage id (fun _ => []) 1
        (Except.ok (DomResponse.bare
          [textNode "<div class=\"page-title\">Home</div>" "Home"]))
        (Except.ok []) (Except.ok ⟨none, none⟩) ≠
      processPage id (fun _ => []) 1
        (Except.ok (DomResponse.wrapped
          [textNode "<div class=\"page-title\">Home</div>" "Home"]))
        (Except.ok []) (Except.ok ⟨none, none⟩) := by decide

/-- C5 (amended): `processPage` reads the `.nodes` property of the
document-tree response without shape normalization: the wrapped shape is
processed to a successful `FetchResult`, while a bare node array makes
the call fail with a TypeError (the `Array.isArray(processedNodes)`
check in the source inspects the resolver's output, which is always an
array, and performs no shape normalization). -/

theorem claim_C5_amended (td : String → String) (f : String → List WNode)
    (fuel : Nat) (ns : List WNode) (cs : List WebflowCaseStudyItem)
    (sp : WebflowSystemPromptItem) :
    processPage td f fuel (Except.ok (DomResponse.bare ns)) (Except.ok cs)
        (Except.ok sp) = Except.error FetchErr.jsTypeError ∧
    ∃ r : FetchResult, processPage td f fuel (Except.ok (DomResponse.wrapped ns))
        (Except.ok cs) (Except.ok sp) = Except.ok r :=
  ⟨rfl, ⟨_, rfl⟩⟩

/-- C6 (counterexample): when the same page-title marker text is
encountered a second time, the page's entry is replaced with fresh empty
content: after the events marker "Home", content "a", the accumulated
content is "a\n", but one further marker "Home" resets it to "" — the
content did not grow. -/

theorem claim_C6_counterexample :
    (getKey (foldEvents id initExtractState
        [ExtractEv.marker "Home", ExtractEv.content "a"]).pages "Home").map
        PageContent.content = some "a\n" ∧
    (getKey (foldEvents id initExtractState
        [ExtractEv.marker "Home", ExtractEv.content "a",
         ExtractEv.marker "Home"]).pages "Home").map PageContent.content =
      some "" ∧
    ¬∃ r : String, ("" : String) = "a\n" ++ r := by
  refine ⟨by decide, by decide, ?_⟩
  rintro ⟨r, hr⟩
  have hlen := congrArg String.length hr
  rw [String.length_append] at hlen
  have h2 : ("a\n" : String).length = 2 := rfl
  have h0 : ("" : String).length = 0 := rfl
  rw [h2, h0] at hlen
  omega

/-- C6 (amended): during one extraction traversal a page entry, once
created, is never deleted (its key stays present through any further
events), and each step either extends a page's content on the right or —
exactly when the step is a page-title marker whose trimmed text equals
that page's title — replaces the entry with fresh empty content. -/

theorem claim_C6_amended :
    (∀ (td : String → String) (es : List ExtractEv) (st : ExtractState)
      (t : String), (getKey st.pages t).isSome = true →
      (getKey (foldEvents td st es).pages t).isSome = true) ∧
    (∀ (td : String → String) (st : ExtractState) (e : ExtractEv) (t : String)
      (v : PageContent), getKey st.pages t = some v →
      ∃ v', getKey (extractStep td st e).pages t = some v' ∧
        ((∃ r, v'.content = v.content ++ r) ∨
          ∃ txt, e = ExtractEv.marker txt ∧ jsTrimString txt = t ∧
            v'.content = "")) := by
  constructor
  · intro td es
    induction es with
    | nil => intro st t h; exact h
    | cons e rest ih =>
      intro st t h
      exact ih (extractStep td st e) t (getKey_isSome_extractStep td st e t h)
  · intro td st e t v hv
    cases e with
    | marker txt =>
      show ∃ v', getKey (setKey st.pages (jsTrimString txt) _) t = some v' ∧ _
      rw [getKey_setKey]
      by_cases ht : t = jsTrimString txt
      · subst ht
        refine ⟨⟨jsTrimString txt, createSlug (jsTrimString txt), ""⟩, ?_, ?_⟩
        · rw [if_pos rfl]
        · exact Or.inr ⟨txt, rfl, rfl, rfl⟩
      · rw [if_neg ht]
        exact ⟨v, hv, Or.inl ⟨"", by simp⟩⟩
    | content html =>
      unfold extractStep
      cases hcp : st.currentPage with
      | none => exact ⟨v, hv, Or.inl ⟨"", by simp⟩⟩
      | some T =>
        simp only []
        rw [getKey_appendContent]
        by_cases ht : t = T
        · subst ht
          rw [if_pos rfl, hv]
          exact ⟨_, rfl, Or.inl ⟨_, rfl⟩⟩
        · rw [if_neg ht]
          exact ⟨v, hv, Or.inl ⟨"", by simp⟩⟩

/-- C6 (witness). -/

theorem claim_C6_witness :
    (getKey
      ({ pages := [("Home", { title := "Home", slug := "/home", content := "a" })],
         currentPage := some "Home" } : ExtractState).pages "Home").isSome = true ∧
    (getKey (foldEvents id
        { pages := [("Home", { title := "Home", slug := "/home", content := "a" })],
          currentPage := some "Home" } [ExtractEv.content "b"]).pages
        "Home").isSome = true ∧
    getKey
      ({ pages := [("Home", { title := "Home", slug := "/home", content := "a" })],
         currentPage := some "Home" } : ExtractState).pages "Home" =
      some { title := "Home", slug := "/home", content := "a" } ∧
    ∃ v', getKey (extractStep id
        { pages := [("Home", { title := "Home", slug := "/home", content := "a" })],
          currentPage := some "Home" } (ExtractEv.content "b")).pages "Home" =
        some v' ∧
      ((∃ r, v'.content = "a" ++ r) ∨
        ∃ txt, ExtractEv.content "b" = ExtractEv.marker txt ∧
          jsTrimString txt = "Home" ∧ v'.content = "") :=
  ⟨by decide,
   claim_C6_amended.1 id [ExtractEv.content "b"]
     { pages := [("Home", { title := "Home", slug := "/home", content := "a" })],
       currentPage := some "Home" } "Home" (by decide),
   by decide,
   claim_C6_amended.2 id
     { pages := [("Home", { title := "Home", slug := "/home", content := "a" })],
       currentPage := some "Home" } (ExtractEv.content "b") "Home"
     { title := "Home", slug := "/home", content := "a" } (by decide)⟩

/-- C7: `createSlug` agrees with the specification's characterization on
every title — lower-case; titles case-insensitively equal to "index" map
to the literal "/in"; otherwise every maximal run outside `[a-z0-9]`
becomes one hyphen, edge hyphens are stripped, and "/" is prefixed — and
in particular maps "Index" to "/in", "Case Studies!" to "/case-studies"
and "  Multi   Space " to "/multi-space". -/

theorem claim_C7_slugify :
    (∀ title : String, createSlug title = slugifySpec title) ∧
    createSlug "Index" = "/in" ∧
    createSlug "Case Studies!" = "/case-studies" ∧
    createSlug "  Multi   Space " = "/multi-space" :=
  ⟨createSlug_eq_spec, by decide, by decide, by decide⟩

/-- C8: `transformCaseStudies` keys each entry by the trimmed name
lower-cased; the value under any key is built from the last item whose
trimmed-lowered name equals it (last-write-wins), with title the trimmed
name, slug "/casestudies/" ++ the source-provided slug, and sanitized
converted content; and the output object holds exactly one entry per
key (its keys are pairwise distinct). -/

theorem claim_C8_transform_case_studies :
    (∀ (td : String → String) (items : List WebflowCaseStudyItem) (k : String),
      getKey (transformCaseStudies td items) k =
        (items.reverse.find?
          (fun it => jsToLowerString (jsTrimString it.name) == k)).map
          (fun it =>
            { title := jsTrimString it.name,
              slug := "/casestudies/".append it.slug,
              content := sanitizeContent (td (it.content.getD "")) })) ∧
    (∀ (td : String → String) (items : List WebflowCaseStudyItem),
      ((transformCaseStudies td items).map Prod.fst).Nodup) := by
  constructor
  · intro td items k
    unfold transformCaseStudies
    rw [getKey_foldl_setKey]
    rw [show getKey ([] : List (String × CaseStudy)) k = none from rfl]
    rw [Option.or_none]
    rw [← List.map_reverse, List.find?_map, Option.map_map]
    rfl
  · intro td items
    unfold transformCaseStudies
    exact keys_foldl_setKey_nodup _ (by simp)

/-- C9 (counterexample): the component cache does not start empty at
each `processPage` call: it is a field of the `WebflowFetcher` instance,
so an entry written by one invocation is still present — and observable,
by the absence of a second fetch — in a later invocation on the same
instance (the deployed route constructs a single module-level
instance). -/

theorem claim_C9_counterexample :
    (processPageFetches (fun _ => []) 5 newWebflowFetcher
        [instNode "C1"]).2.componentCache ≠ newWebflowFetcher.componentCache ∧
    (processPageFetches (fun _ => []) 5
        (processPageFetches (fun _ => []) 5 newWebflowFetcher
          [instNode "C1"]).2 [instNode "C1"]).1 = [] ∧
    (processPageFetches (fun _ => []) 5 newWebflowFetcher
        [instNode "C1"]).1 = ["C1"] := by decide

/-- C9 (amended): the cache is scoped to a `WebflowFetcher` instance,
not to a `processPage` invocation: a freshly constructed instance starts
with an empty cache, every cached id survives a `processPage` call's
resolution work (entries persist on the instance), and no id already in
the instance cache is ever fetched again by a later call. -/

theorem claim_C9_amended :
    newWebflowFetcher.componentCache = [] ∧
    (∀ (f : String → List WNode) (fuel : Nat) (st : WebflowFetcherState)
      (nodes : List WNode),
      st.componentCache ⊆ (processPageFetches f fuel st nodes).2.componentCache) ∧
    (∀ (f : String → List WNode) (fuel : Nat) (st : WebflowFetcherState)
      (nodes : List WNode), ∀ c ∈ (processPageFetches f fuel st nodes).1,
      c ∉ st.componentCache) :=
  ⟨rfl,
   fun f fuel st nodes => cacheRun_cache_mono f fuel (pendingIds nodes) _ _,
   fun f fuel st nodes =>
     cacheRun_log_fresh f fuel (pendingIds nodes) _ _ _
       (fun _ h => h) (fun _ h => h)⟩

/-- C9 (witness). -/

theorem claim_C9_witness :
    "C1" ∈ (processPageFetches (fun _ => []) 5 (⟨[]⟩ : WebflowFetcherState)
        [instNode "C1"]).1 ∧
    "C1" ∉ (⟨[]⟩ : WebflowFetcherState).componentCache :=
  ⟨by decide,
   claim_C9_amended.2.2 (fun _ => []) 5 ⟨[]⟩ [instNode "C1"] "C1" (by decide)⟩

/-- C10: the normalizer applies exactly the seven rules in the source's
order — remove script blocks, remove style blocks, remove figure blocks,
strip remaining tags, replace the non-breaking-space entity, collapse
whitespace runs, trim (first conjunct) — and it is total with graceful
degradation: for every input string, including malformed HTML, its
output is fully stripped text — it contains no tag-shaped fragment, no
`&nbsp;` entity, no whitespace runs, and no edge whitespace. -/

theorem claim_C10_normalizer_rules (s : String) :
    convertHtmlToMarkdown s =
      ⟨jsTrimList (collapseWs (replaceNbsp (stripTags (removeBlocks figureTag
        (removeBlocks styleTag (removeBlocks scriptTag s.data))))))⟩ ∧
    goodAngles (convertHtmlToMarkdown s).data = true ∧
    occursPat nbspPat (convertHtmlToMarkdown s).data = false ∧
    wsOk (convertHtmlToMarkdown s).data = true ∧
    jsTrimList (convertHtmlToMarkdown s).data = (convertHtmlToMarkdown s).data :=
  ⟨rfl, convertList_good s.data, convertList_nbsp_free s.data,
   convertList_wsOk s.data, convertList_trim_fixed s.data⟩

example : convertHtmlToMarkdown "<script>evil()</script>keep" = "keep" := by decide

example : convertHtmlToMarkdown "a <b>bold</b>   text " = "a bold text" := by decide

example : convertHtmlToMarkdown "<figure><img src=x></figure>txt" = "txt" := by decide

example : convertHtmlToMarkdown "broken <tag" = "broken <tag" := by decide

example : convertHtmlToMarkdown "<SCRIPT a>x</ScRiPt>y" = "y" := by decide

example : convertHtmlToMarkdown "<scripty>x</script>" = "x" := by decide

end SelfhoodApi
